import Mathlib

/-!
Verification of the schema-graph compiler (`schema/graph.rs`): adjacency-list
construction by breadth-first traversal with pointer-identity deduplication,
reference resolution, range-graph derivation, and compaction.

The parsed JSON document is modelled as an arena of values: an `Addr` is the
identity of one parsed node (the image of a `*const Value` pointer), so two
paths reach "the same underlying sub-value" exactly when they reach the same
`Addr`.  Machine integers are `Nat`; fallible code returns explicit outcome
types; the `todo!()` body of `RangeGraph::compress` is modelled as a panic;
`panic!`/`unwrap`/`expect` aborts are a `panic` outcome, distinct from the
`err` outcome that models a returned `Result::Err`.  The `Resolver` /
`Reference` / URL machinery lives in `resolving.rs` and the `url` crate,
which are not part of the given source; those parts are modelled from the
specification (each such definition is marked `Modelled from the spec:`).
-/

/-- The identity of a parsed JSON value: an index into the arena of parsed
nodes.  Plays the role of `*const Value` in the visited map. -/
abbrev Addr := Nat

/-- A parsed JSON value (`serde_json::Value`); children are stored by
identity (`Addr`), mirroring that sub-values of a parsed document are
distinct allocations reachable by reference. -/
inductive JVal where
  | null
  | bool (b : Bool)
  | num (n : Nat)
  | str (s : String)
  | arr (items : List Addr)
  | obj (members : List (String × Addr))
deriving Repr, DecidableEq

/-- The arena of parsed values: one document set, all values addressable. -/
structure Arena where
  cells : List JVal
deriving Repr, DecidableEq

/-- Fetch the value at an address (out-of-range never occurs in real runs). -/
def Arena.get (a : Arena) (i : Addr) : JVal := a.cells.getD i JVal.null

/-- `Value::as_u64`: numbers yield their value, everything else `none`. -/
def JVal.as_u64 : JVal → Option Nat
  | .num n => some n
  | _ => none

/-- `Value::as_str`: strings yield their content, everything else `none`. -/
def JVal.as_str : JVal → Option String
  | .str s => some s
  | _ => none

/-- Number of direct children a value enqueues at most during expansion. -/
def JVal.childCount : JVal → Nat
  | .obj ms => ms.length
  | .arr xs => xs.length
  | _ => 0

/-! ### Character-level string helpers (kernel-friendly) -/

/-- Whether the first list is a leading run of the second. -/
def charsLead : List Char → List Char → Bool
  | [], _ => true
  | _ :: _, [] => false
  | a :: as, b :: bs => a == b && charsLead as bs

/-- Whether the pattern occurs as a contiguous run of the text. -/
def charsContain (pat : List Char) : List Char → Bool
  | [] => charsLead pat []
  | c :: cs => charsLead pat (c :: cs) || charsContain pat cs

/-- Split a character list at every occurrence of the separator. -/
def splitChar (c : Char) : List Char → List (List Char)
  | [] => [[]]
  | x :: xs =>
    let r := splitChar c xs
    if x == c then [] :: r
    else
      match r with
      | [] => [[x]]
      | h :: t => (x :: h) :: t

/-- The characters after the first number sign, `none` when there is none. -/
def afterHash : List Char → Option (List Char)
  | [] => none
  | c :: rest => if c == '#' then some rest else afterHash rest

/-- Split at the first occurrence of the pattern: the parts before and after. -/
def splitSub (pat : List Char) : List Char → Option (List Char × List Char)
  | [] => if pat.isEmpty then some ([], []) else none
  | c :: cs =>
    if charsLead pat (c :: cs) then some ([], (c :: cs).drop pat.length)
    else
      match splitSub pat cs with
      | some (pre, post) => some (c :: pre, post)
      | none => none

/-- Parse a decimal number, used for array positions in pointers. -/
def digitsToNat : List Char → Option Nat
  | [] => none
  | cs => go cs 0
where
  go : List Char → Nat → Option Nat
    | [], acc => some acc
    | c :: rest, acc =>
      if '0' ≤ c ∧ c ≤ '9' then go rest (acc * 10 + (c.toNat - '0'.toNat))
      else none

/-! ### Locations (URLs).  Modelled from the spec: the `url` crate's
relative-URL joining used by `Scope::build_url`, with a scheme/host/path
structure; relative segments replace the last path component, `.` and `..`
normalise, and a reference carrying a scheme ignores the base entirely. -/

/-- Modelled from the spec: an absolute location (the `url::Url` type). -/
structure Url where
  scheme : String
  host : String
  segs : List String
  fragment : Option String
deriving Repr, DecidableEq

/-- Modelled from the spec: whether a reference string carries a scheme
before any fragment, making it fully qualified. -/
def hasScheme (s : String) : Bool :=
  charsContain ("://".data) (s.data.takeWhile (fun c => !(c == '#')))

/-- Modelled from the spec: `is_local` of `resolving.rs` — a purely local
fragment reference, one that starts with the number sign. -/
def is_local (s : String) : Bool :=
  match s.data with
  | c :: _ => c == '#'
  | [] => false

/-- Modelled from the spec: parse a fully qualified location. -/
def parseAbsolute (s : String) : Url :=
  let main := s.data.takeWhile (fun c => !(c == '#'))
  let frag := (afterHash s.data).map (fun f => String.mk f)
  match splitSub ("://".data) main with
  | some (sch, rest) =>
    let parts := splitChar '/' rest
    { scheme := String.mk sch, host := String.mk (parts.headD []),
      segs := (parts.drop 1).map (fun l => String.mk l), fragment := frag }
  | none =>
    { scheme := "", host := "", segs := [String.mk main], fragment := frag }

/-- Modelled from the spec: path normalisation — `.` disappears and `..`
removes the previous segment. -/
def normSegs : List String → List String → List String
  | acc, [] => acc.reverse
  | acc, s :: rest =>
    if s = "." then normSegs acc rest
    else if s = ".." then normSegs (acc.drop 1) rest
    else normSegs (s :: acc) rest

/-- Modelled from the spec: `url::Url::join` — standard relative-URL joining:
a reference with a scheme is absolute and ignores the base; a pure fragment
replaces the base's fragment; an absolute path replaces the whole path; a
relative path replaces the last path component of the base. -/
def Url.join (u : Url) (reference : String) : Url :=
  if hasScheme reference then parseAbsolute reference
  else
    let path := reference.data.takeWhile (fun c => !(c == '#'))
    let frag := (afterHash reference.data).map (fun f => String.mk f)
    if path.isEmpty then { u with fragment := frag }
    else
      match path with
      | '/' :: tl =>
        { u with segs := normSegs [] ((splitChar '/' tl).map (fun l => String.mk l)),
                 fragment := frag }
      | _ =>
        { u with segs := normSegs []
                   (u.segs.dropLast ++ (splitChar '/' path).map (fun l => String.mk l)),
                 fragment := frag }

/-- Join path segments back into a single string. -/
def joinSegs : List String → String
  | [] => ""
  | [s] => s
  | s :: rest => s ++ "/" ++ joinSegs rest

/-- Render a location as its canonical string (`Url::as_str`). -/
def Url.render (u : Url) : String :=
  u.scheme ++ "://" ++ u.host ++ "/" ++ joinSegs u.segs ++
    (match u.fragment with
     | some f => "#" ++ f
     | none => "")

/-- Drop the fragment part of a rendered location. -/
def withoutFrag (s : String) : String :=
  String.mk (s.data.takeWhile (fun c => !(c == '#')))

/-! ### Errors and outcomes -/

/-- A recoverable compilation error (`schema::error::Error`), surfaced to the
caller through `Result::Err`. -/
inductive BuildError where
  | locationNotFound (location : String)
deriving Repr, DecidableEq

/-- Outcome of a non-recursive step: success, a returned `Result::Err`, or a
process abort (`panic!` / `unwrap` / `expect`). -/
inductive StepOutcome (α : Type) where
  | ok (val : α)
  | err (e : BuildError)
  | panic (msg : String)
deriving Repr, DecidableEq

/-- Outcome of a full pass.  `outOfFuel` is an artifact of the fuelled
recursion used to model the Rust loops; it never occurs with the fuel the
entry points supply (proved below). -/
inductive BuildOutcome (α : Type) where
  | ok (val : α)
  | err (e : BuildError)
  | panic (msg : String)
  | outOfFuel
deriving Repr, DecidableEq

/-- Whether an outcome is a returned (recoverable) error. -/
def BuildOutcome.isErr : BuildOutcome α → Bool
  | .err _ => true
  | _ => false

/-! ### Resolvers and scopes -/

/-- Modelled from the spec: a `Resolver` is bound to one document — its
canonical base location (`scope()`) and the identity of the document's root
value in the arena. -/
structure Resolver where
  scope : Url
  root : Addr
deriving Repr, DecidableEq

/-- Look up an address in an association list (the visited map). -/
def lookupAddr : List (Addr × Nat) → Addr → Option Nat
  | [], _ => none
  | (k, v) :: rest, a => if k = a then some v else lookupAddr rest a

/-- Look up a registered resolver by canonical location string. -/
def lookupRes : List (String × Resolver) → String → Option Resolver
  | [], _ => none
  | (k, v) :: rest, s => if k = s then some v else lookupRes rest s

/-- Look up an object member by key. -/
def lookupMember : List (String × Addr) → String → Option Addr
  | [], _ => none
  | (k, v) :: rest, s => if k = s then some v else lookupMember rest s

/-- Modelled from the spec: `id_of_object` of `resolving.rs` — the string
value of an object's local-identifier keyword, when present. -/
def id_of_object (arena : Arena) (ms : List (String × Addr)) : Option String :=
  match lookupMember ms ("$id") with
  | some a => (arena.get a).as_str
  | none => none

/-- Step one pointer segment down from a value. -/
def childAt (arena : Arena) (a : Addr) (seg : String) : Option Addr :=
  match arena.get a with
  | .obj ms => lookupMember ms seg
  | .arr xs =>
    match digitsToNat seg.data with
    | some i => xs.get? i
    | none => none
  | _ => none

/-- Modelled from the spec: pointer walking inside one document, collecting
the local-identifier segments traversed on the way ("exposes the set of
intermediate path segments traversed"), failing with a location-not-found
error when the designated sub-value does not exist. -/
def walkPtr (arena : Arena) : List String → Addr → List String →
    Except BuildError (List String × Addr)
  | [], a, acc => .ok (acc.reverse, a)
  | seg :: rest, a, acc =>
    let acc' :=
      match arena.get a with
      | .obj ms =>
        match id_of_object arena ms with
        | some fid => fid :: acc
        | none => acc
      | _ => acc
    match childAt arena a seg with
    | some b => walkPtr arena rest b acc'
    | none => .error (.locationNotFound seg)

/-- Modelled from the spec: resolution of a reference inside one document —
"what sub-value does this pointer/fragment designate": the fragment part of
the reference is followed as a JSON pointer from the document root; no
fragment or an empty fragment designates the root itself. -/
def resolveIn (arena : Arena) (rootAddr : Addr) (reference : String) :
    Except BuildError (List String × Addr) :=
  match afterHash reference.data with
  | none => .ok ([], rootAddr)
  | some [] => .ok ([], rootAddr)
  | some ('/' :: tl) =>
    walkPtr arena ((splitChar '/' tl).map (fun l => String.mk l)) rootAddr []
  | some _ => .error (.locationNotFound reference)

/-- Modelled from the spec: `Resolver::resolve` — pure lookup of the
designated sub-value plus the traversed segment stack. -/
def Resolver.resolve (arena : Arena) (r : Resolver) (reference : String) :
    Except BuildError (List String × Addr) :=
  resolveIn arena r.root reference

/-- Modelled from the spec: `Resolver::contains` — whether the given absolute
location is addressable by this resolver's document. -/
def Resolver.contains (r : Resolver) (location : String) : Bool :=
  withoutFrag location == r.scope.render

/-- Modelled from the spec: `Reference::try_from` classifies a reference
string as fully qualified (it carries a scheme) or relative to the current
document. -/
inductive Reference where
  | absolute (location : String)
  | relative (location : String)
deriving Repr, DecidableEq

/-- Modelled from the spec: classification of a reference string. -/
def Reference.tryFrom (s : String) : StepOutcome Reference :=
  if hasScheme s then .ok (.absolute s) else .ok (.relative s)

/-- The traversal scope: the active resolver plus the stack of
local-identifier-introduced base-location segments (`Scope` in `graph.rs`). -/
structure Scope where
  folders : List String
  resolver : Resolver
deriving Repr, DecidableEq

/-- `Scope::new`: fresh scope at a document root, empty segment stack. -/
def Scope.new (resolver : Resolver) : Scope := ⟨[], resolver⟩

/-- `Scope::with_folders`. -/
def Scope.with_folders (resolver : Resolver) (folders : List String) : Scope :=
  ⟨folders, resolver⟩

/-- `Scope::track_folder`: push the object's local identifier, if any. -/
def Scope.track_folder (arena : Arena) (s : Scope) (ms : List (String × Addr)) :
    Scope :=
  match id_of_object arena ms with
  | some fid => { s with folders := s.folders ++ [fid] }
  | none => s

/-- `Scope::build_url`: join the base with every folder pushed after the
first, then join the relative reference. -/
def Scope.build_url (s : Scope) (scope : Url) (reference : String) : Url :=
  let location := scope
  let location :=
    if s.folders.length > 1 then (s.folders.drop 1).foldl Url.join location
    else location
  location.join reference

/-! ### The adjacency list -/

/-- A label on an edge between two JSON values (`EdgeLabel`). -/
inductive EdgeLabel where
  | key (k : String)
  | index (i : Nat)
deriving Repr, DecidableEq

/-- `EdgeLabel::as_key`. -/
def EdgeLabel.as_key : EdgeLabel → Option String
  | .key k => some k
  | .index _ => none

/-- An edge between two JSON values stored in the adjacency list. -/
structure Edge where
  label : EdgeLabel
  target : Nat
deriving Repr, DecidableEq

/-- A half-open range of node indexes (`std::ops::Range<usize>`):
`lo` inclusive, `hi` exclusive. -/
structure NRange where
  lo : Nat
  hi : Nat
deriving Repr, DecidableEq

/-- Whether a node slot handed back by `push` was freshly allocated. -/
inductive SlotState where
  | new
  | used
deriving Repr, DecidableEq

/-- A slot for a node (`NodeSlot`). -/
structure NodeSlot where
  id : Nat
  state : SlotState
deriving Repr, DecidableEq

/-- The adjacency list: raw-value identities per node (index 0 is the dummy
sentinel, holding no document value), labelled edges per node, and the
transient identity-to-node map. -/
structure AdjacencyList where
  nodes : List (Option Addr)
  edges : List (List Edge)
  visited : List (Addr × Nat)
deriving Repr, DecidableEq

/-- `AdjacencyList::empty`: the dummy sentinel in front, so every real node
has a parent. -/
def AdjacencyList.empty : AdjacencyList := ⟨[none], [[]], []⟩

/-- Append an edge to a parent's edge list. -/
def addEdge (es : List (List Edge)) (p : Nat) (e : Edge) : List (List Edge) :=
  es.set p (es.getD p [] ++ [e])

/-- `AdjacencyList::push`: deduplicate by identity — a value already in the
visited map reuses its `NodeId` (slot `used`), otherwise a fresh node and an
empty edge list are appended (slot `new`); either way a new edge from the
parent to the slot is recorded. -/
def AdjacencyList.push (al : AdjacencyList) (parentId : Nat) (label : EdgeLabel)
    (node : Addr) : NodeSlot × AdjacencyList :=
  match lookupAddr al.visited node with
  | some id =>
    (⟨id, .used⟩, ⟨al.nodes, addEdge al.edges parentId ⟨label, id⟩, al.visited⟩)
  | none =>
    let nodeId := al.nodes.length
    (⟨nodeId, .new⟩,
     ⟨al.nodes ++ [some node], addEdge (al.edges ++ [[]]) parentId ⟨label, nodeId⟩,
      (node, nodeId) :: al.visited⟩)

/-- `AdjacencyList::range_of`: the range spanned by a node's first and last
edge targets; an empty edge list yields the explicitly empty range `0..0`. -/
def AdjacencyList.range_of (al : AdjacencyList) (targetId : Nat) : NRange :=
  match al.edges.getD targetId [] with
  | [] => ⟨0, 0⟩
  | e :: es => ⟨e.target, (es.getLastD e).target + 1⟩

/-- An item of the breadth-first work queue: scope, parent node, edge label,
and the value to visit. -/
structure QItem where
  scope : Scope
  parent : Nat
  label : EdgeLabel
  node : Addr
deriving Repr, DecidableEq

/-- The reference branch of the traversal (`graph.rs` lines 261–303): classify
the reference, select the resolver — for a fully qualified location, the
registered resolver or else the current one; for a relative location, the
current resolver unless the built absolute location is neither claimed by it
nor registered, which is a non-recoverable `expect` ("Unknown reference") —
and resolve, yielding the seeded scope and the resolved value. -/
def refChild (arena : Arena) (resolvers : List (String × Resolver))
    (scope : Scope) (reference : String) : StepOutcome (Scope × Addr) :=
  match Reference.tryFrom reference with
  | .err e => .err e
  | .panic m => .panic m
  | .ok (.absolute location) =>
    match lookupRes resolvers location with
    | some resolver =>
      match Resolver.resolve arena resolver reference with
      | .ok (folders, resolved) => .ok (Scope.with_folders resolver folders, resolved)
      | .error e => .err e
    | none =>
      match Resolver.resolve arena scope.resolver reference with
      | .ok (_, resolved) => .ok (scope, resolved)
      | .error e => .err e
  | .ok (.relative location) =>
    match
      (if is_local location then StepOutcome.ok scope.resolver
       else
         let url := scope.build_url scope.resolver.scope location
         if scope.resolver.contains url.render then StepOutcome.ok scope.resolver
         else
           match lookupRes resolvers url.render with
           | some r => StepOutcome.ok r
           | none => StepOutcome.panic ("Unknown reference")) with
    | .ok resolver =>
      match Resolver.resolve arena resolver location with
      | .ok (folders, resolved) => .ok (Scope.with_folders resolver folders, resolved)
      | .error e => .err e
    | .err e => .err e
    | .panic m => .panic m

/-- Expansion of an object's members (the member loop of `AdjacencyList::new`):
a member whose key is the reference keyword and whose value is a string
enqueues the resolved target under the resolved scope; a reference member
whose value is not a string is skipped entirely; every other member enqueues
its value under the unchanged scope with a key label. -/
def expandObject (arena : Arena) (resolvers : List (String × Resolver))
    (scope : Scope) (slotId : Nat) :
    List (String × Addr) → StepOutcome (List QItem)
  | [] => .ok []
  | (key, v) :: rest =>
    if key = "$ref" then
      match arena.get v with
      | .str reference =>
        match refChild arena resolvers scope reference with
        | .ok (scope', resolved) =>
          match expandObject arena resolvers scope slotId rest with
          | .ok items => .ok (⟨scope', slotId, .key key, resolved⟩ :: items)
          | .err e => .err e
          | .panic m => .panic m
        | .err e => .err e
        | .panic m => .panic m
      | _ => expandObject arena resolvers scope slotId rest
    else
      match expandObject arena resolvers scope slotId rest with
      | .ok items => .ok (⟨scope, slotId, .key key, v⟩ :: items)
      | .err e => .err e
      | .panic m => .panic m

/-- Expansion of one freshly visited value: objects first track a possible
local identifier then expand their members; arrays enqueue every element with
its position label; scalars have no children. -/
def expandNode (arena : Arena) (resolvers : List (String × Resolver))
    (scope : Scope) (slotId : Nat) (node : Addr) : StepOutcome (List QItem) :=
  match arena.get node with
  | .obj ms =>
    let scope' := scope.track_folder arena ms
    expandObject arena resolvers scope' slotId ms
  | .arr xs =>
    .ok ((xs.enum).map (fun p => ⟨scope, slotId, .index p.1, p.2⟩))
  | _ => .ok []

/-- The breadth-first loop of `AdjacencyList::new`, fuelled: pop an item,
push it (dedup by identity), and only when the slot is fresh expand its
children to the back of the queue. -/
def newAux (arena : Arena) (resolvers : List (String × Resolver)) :
    Nat → List QItem → AdjacencyList → BuildOutcome AdjacencyList
  | _, [], al => .ok al
  | 0, _ :: _, _ => .outOfFuel
  | fuel + 1, item :: rest, al =>
    match al.push item.parent item.label item.node with
    | (slot, al') =>
      match slot.state with
      | .new =>
        match expandNode arena resolvers item.scope slot.id item.node with
        | .ok children => newAux arena resolvers fuel (rest ++ children) al'
        | .err e => .err e
        | .panic m => .panic m
      | .used => newAux arena resolvers fuel rest al'

/-- Total weight of an arena: the sum of all values' child counts; an upper
bound on the number of queue items ever enqueued past the initial one. -/
def totalWeight (arena : Arena) : Nat :=
  ((List.range arena.cells.length).map (fun a => (arena.get a).childCount)).sum

/-- Fuel that always suffices for the breadth-first traversal (proved below). -/
def fuelFor (arena : Arena) : Nat := totalWeight arena + 2

/-- `AdjacencyList::new`: breadth-first traversal from the schema root under
the root resolver's fresh scope, the sentinel as parent. -/
def AdjacencyList.new (arena : Arena) (schema : Addr) (root : Resolver)
    (resolvers : List (String × Resolver)) : BuildOutcome AdjacencyList :=
  newAux arena resolvers (fuelFor arena) [⟨Scope.new root, 0, .index 0, schema⟩]
    AdjacencyList.empty

/-! ### The range graph -/

/-- The closed set of type names (`ValueType`). -/
inductive ValueType where
  | array
  | boolean
  | integer
  | null
  | number
  | object
  | string
deriving Repr, DecidableEq

/-- Typed keyword representations (the `Keyword` enum of `vocabularies`). -/
inductive Keyword where
  | allOf (edges : NRange)
  | items
  | properties (edges : NRange)
  | ref (nodes : NRange)
  | maximum (limit : Nat)
  | maxLength (limit : Nat)
  | minProperties (limit : Nat)
  | typeKw (t : ValueType)
deriving Repr, DecidableEq

/-- An edge to a contiguous range of nodes (`RangedEdge`). -/
structure RangedEdge where
  label : EdgeLabel
  nodes : NRange
deriving Repr, DecidableEq

/-- The range graph: per-slot optional typed keyword and optional ranged
edge, same length as the adjacency list. -/
structure RangeGraph where
  nodes : List (Option Keyword)
  edges : List (Option RangedEdge)
deriving Repr, DecidableEq

/-- `RangeGraph::set_node`. -/
def RangeGraph.set_node (rg : RangeGraph) (id : Nat) (k : Keyword) : RangeGraph :=
  { rg with nodes := rg.nodes.set id (some k) }

/-- `RangeGraph::set_edge`. -/
def RangeGraph.set_edge (rg : RangeGraph) (id : Nat) (label : EdgeLabel)
    (nodes : NRange) : RangeGraph :=
  { rg with edges := rg.edges.set id (some ⟨label, nodes⟩) }

/-- `RangeGraph::set_many_edges`. -/
def RangeGraph.set_many_edges (rg : RangeGraph) (edges : List Edge)
    (al : AdjacencyList) : RangeGraph :=
  edges.foldl (fun rg e => rg.set_edge e.target e.label (al.range_of e.target)) rg

/-- The value a node slot of the adjacency list refers to (the sentinel holds
the static null). -/
def nodeValue (arena : Arena) (al : AdjacencyList) (id : Nat) : JVal :=
  match al.nodes.getD id none with
  | some a => arena.get a
  | none => JVal.null

/-- The interpretation of the type keyword's string value; an unrecognized
name is an authoring error (`panic!("invalid type")` at the use site). -/
def typeOfString : String → Option ValueType
  | "array" => some .array
  | "boolean" => some .boolean
  | "integer" => some .integer
  | "null" => some .null
  | "number" => some .number
  | "object" => some .object
  | "string" => some .string
  | _ => none

/-- The panic message of `Option::unwrap` on `None`. -/
def unwrapMsg : String := "called Option::unwrap() on a None value"

/-- Keyword recognition for one edge of a visited node (the match of
`RangeGraph::try_from`): bound keywords unwrap a numeric value, the type
keyword unwraps a string and panics on an unrecognized name, aggregating
keywords compute their target's child range and re-point the target's edges,
and the reference keyword records the resolved child range; anything else is
structural and sets nothing. -/
def processEdge (arena : Arena) (al : AdjacencyList) (rg : RangeGraph)
    (edge : Edge) : StepOutcome RangeGraph :=
  match edge.label.as_key with
  | some ("maximum") =>
    match (nodeValue arena al edge.target).as_u64 with
    | some n => .ok (rg.set_node edge.target (.maximum n))
    | none => .panic unwrapMsg
  | some ("maxLength") =>
    match (nodeValue arena al edge.target).as_u64 with
    | some n => .ok (rg.set_node edge.target (.maxLength n))
    | none => .panic unwrapMsg
  | some ("minProperties") =>
    match (nodeValue arena al edge.target).as_u64 with
    | some n => .ok (rg.set_node edge.target (.minProperties n))
    | none => .panic unwrapMsg
  | some ("type") =>
    match (nodeValue arena al edge.target).as_str with
    | none => .panic unwrapMsg
    | some s =>
      match typeOfString s with
      | some t => .ok (rg.set_node edge.target (.typeKw t))
      | none => .panic ("invalid type")
  | some ("properties") =>
    .ok ((rg.set_node edge.target (.properties (al.range_of edge.target))).set_many_edges
      (al.edges.getD edge.target []) al)
  | some ("items") => .ok (rg.set_node edge.target .items)
  | some ("allOf") =>
    .ok ((rg.set_node edge.target (.allOf (al.range_of edge.target))).set_many_edges
      (al.edges.getD edge.target []) al)
  | some ("$ref") => .ok (rg.set_node edge.target (.ref (al.range_of edge.target)))
  | _ => .ok rg

/-- Process all edges of one visited node in order, stopping at a panic. -/
def processEdges (arena : Arena) (al : AdjacencyList) :
    List Edge → RangeGraph → StepOutcome RangeGraph
  | [], rg => .ok rg
  | e :: es, rg =>
    match processEdge arena al rg e with
    | .ok rg' => processEdges arena al es rg'
    | .err e' => .err e'
    | .panic m => .panic m

/-- The second breadth-first pass of `RangeGraph::try_from`, fuelled: visit
every node index once, enqueue all edge targets, and recognize keywords on
the edges of every non-sentinel node. -/
def deriveAux (arena : Arena) (al : AdjacencyList) :
    Nat → List Nat → List Bool → RangeGraph → BuildOutcome RangeGraph
  | _, [], _, rg => .ok rg
  | 0, _ :: _, _, _ => .outOfFuel
  | fuel + 1, nid :: queue, visited, rg =>
    if visited.getD nid false then deriveAux arena al fuel queue visited rg
    else
      if nid = 0 then
        deriveAux arena al fuel (queue ++ (al.edges.getD nid []).map Edge.target)
          (visited.set nid true) rg
      else
        match processEdges arena al (al.edges.getD nid []) rg with
        | .ok rg' =>
          deriveAux arena al fuel (queue ++ (al.edges.getD nid []).map Edge.target)
            (visited.set nid true) rg'
        | .err e => .err e
        | .panic m => .panic m

/-- Fuel that always suffices for the derivation pass. -/
def deriveFuel (al : AdjacencyList) : Nat :=
  1 + (al.edges.map List.length).sum + al.nodes.length

/-- `RangeGraph::try_from`: derive the range graph from the adjacency list,
starting at the sentinel. -/
def RangeGraph.tryFrom (arena : Arena) (al : AdjacencyList) :
    BuildOutcome RangeGraph :=
  deriveAux arena al (deriveFuel al) [0] (List.replicate al.nodes.length false)
    ⟨List.replicate al.nodes.length none, List.replicate al.edges.length none⟩

/-- The compacted artifact: dense node and edge arrays. -/
structure CompressedRangeGraph where
  nodes : List Keyword
  edges : List RangedEdge
deriving Repr, DecidableEq

/-- `RangeGraph::compress`: the body is `todo!()` — it unconditionally panics
with "not yet implemented" for every input; no compaction is performed. -/
def RangeGraph.compress (_ : RangeGraph) : BuildOutcome CompressedRangeGraph :=
  .panic ("not yet implemented")

/-- `build`: adjacency list, then range graph, then compaction. -/
def build (arena : Arena) (schema : Addr) (root : Resolver)
    (resolvers : List (String × Resolver)) : BuildOutcome CompressedRangeGraph :=
  match AdjacencyList.new arena schema root resolvers with
  | .ok al =>
    match RangeGraph.tryFrom arena al with
    | .ok rg => rg.compress
    | .err e => .err e
    | .panic m => .panic m
    | .outOfFuel => .outOfFuel
  | .err e => .err e
  | .panic m => .panic m
  | .outOfFuel => .outOfFuel

/-! ### Concrete example documents and graphs -/

/-- The canonical base location of the example root document. -/
def rootUrl : Url := ⟨"http", "example.com", ["root.json"], none⟩

/-- The root resolver of the example documents: document root at address 0. -/
def rootResolver : Resolver := ⟨rootUrl, 0⟩

/-- The parsed document
+`{"a": {"$ref": "#/c"}, "b": {"$ref": "#/c"}, "c": 5}`:
two distinct paths (through `a` and through `b`) reach the value at
address 3 by identity. -/
def sharedRefArena : Arena :=
  ⟨[.obj [("a", 1), ("b", 2), ("c", 3)], .obj [("$ref", 4)], .obj [("$ref", 5)],
    .num 5, .str ("#/c"), .str ("#/c")]⟩

/-- The adjacency list `AdjacencyList::new` produces for `sharedRefArena`. -/
def sharedRefList : AdjacencyList :=
  ⟨[none, some 0, some 1, some 2, some 3],
   [[⟨.index 0, 1⟩],
    [⟨.key ("a"), 2⟩, ⟨.key ("b"), 3⟩, ⟨.key ("c"), 4⟩],
    [⟨.key ("$ref"), 4⟩],
    [⟨.key ("$ref"), 4⟩],
    []],
   [(3, 4), (2, 3), (1, 2), (0, 1)]⟩

/-- The parsed document `{"$ref": "#"}`: a reference cycle back to the root. -/
def selfRefArena : Arena := ⟨[.obj [("$ref", 1)], .str ("#")]⟩

/-- The parsed document `{"!a": 5, "$ref": "#"}`: its root node gets one
fresh child and one edge back to the already-visited root. -/
def mixedChildArena : Arena := ⟨[.obj [("!a", 1), ("$ref", 2)], .num 5, .str ("#")]⟩

/-- The adjacency list `AdjacencyList::new` produces for `mixedChildArena`:
node 1 has two edges whose targets `2` and `1` are not contiguous. -/
def mixedChildList : AdjacencyList :=
  ⟨[none, some 0, some 1],
   [[⟨.index 0, 1⟩], [⟨.key ("!a"), 2⟩, ⟨.key ("$ref"), 1⟩], []],
   [(1, 2), (0, 1)]⟩

/-- An adjacency list whose node 1 has two edges with consecutive fresh
targets, the shape the contiguity invariant guarantees for first-time
children. -/
def stairsList : AdjacencyList :=
  ⟨[none, some 0, some 1, some 2, some 3, some 4, some 5],
   [[⟨.index 0, 1⟩], [⟨.key ("a"), 5⟩, ⟨.key ("b"), 6⟩], [], [], [], [], []],
   []⟩

/-- The parsed document `{"maximum": v}` for an arbitrary value `v`. -/
def maxArena (v : JVal) : Arena := ⟨[.obj [("maximum", 1)], v]⟩

/-- The adjacency list `AdjacencyList::new` produces for `maxArena v`
whenever `v` is childless. -/
def maxList : AdjacencyList :=
  ⟨[none, some 0, some 1],
   [[⟨.index 0, 1⟩], [⟨.key ("maximum"), 2⟩], []],
   [(1, 2), (0, 1)]⟩

/-- The parsed document `{"type": v}` for an arbitrary value `v`. -/
def typeValArena (v : JVal) : Arena := ⟨[.obj [("type", 1)], v]⟩

/-- The adjacency list `AdjacencyList::new` produces for `typeValArena v`
whenever `v` is childless. -/
def typeList : AdjacencyList :=
  ⟨[none, some 0, some 1],
   [[⟨.index 0, 1⟩], [⟨.key ("type"), 2⟩], []],
   [(1, 2), (0, 1)]⟩

/-- The parsed document `{"maximum": 5}`, whose compilation reaches the
compaction pass. -/
def maxFiveArena : Arena := ⟨[.obj [("maximum", 1)], .num 5]⟩

/-- A root document `{"$ref": r}` next to the designated sub-value `v`
(address 2) of a second, pre-registered document. -/
def crossArena (r : String) (v : JVal) : Arena :=
  ⟨[.obj [("$ref", 1)], .str r, v]⟩

/-- The adjacency list for `crossArena`: the reference's edge targets node 2,
which holds the target document's designated sub-value (address 2) — the
reference string (address 1) never becomes a node. -/
def crossList : AdjacencyList :=
  ⟨[none, some 0, some 2],
   [[⟨.index 0, 1⟩], [⟨.key ("$ref"), 2⟩], []],
   [(2, 2), (0, 1)]⟩

/-- The resolver of the pre-registered target document, rooted at address 2. -/
def targetResolver : Resolver := ⟨⟨"http", "example.com", ["target.json"], none⟩, 2⟩

/-- A resolver for a document that contains an unresolvable relative
reference. -/
def unknownRefResolver : Resolver := ⟨⟨"http", "a", ["x.json"], none⟩, 0⟩

/-! ### Invariants and reachability -/

/-- The structural invariant of the adjacency list maintained by the
traversal: the visited map and the node array are two views of the same
assignment (each visited value is stored at its recorded id, and each stored
value is recorded in the visited map at its index), and every edge targets a
node recorded in the visited map. -/
structure ListInv (al : AdjacencyList) : Prop where
  vis_sound : ∀ a id, lookupAddr al.visited a = some id →
    al.nodes.get? id = some (some a)
  nodes_sound : ∀ id a, al.nodes.get? id = some (some a) →
    lookupAddr al.visited a = some id
  edge_sound : ∀ es e, es ∈ al.edges → e ∈ es →
    ∃ a, lookupAddr al.visited a = some e.target

/-- The total child weight of the arena addresses not yet in the visited
map: an upper bound on the number of queue items still to be produced. -/
def unallocWeight (arena : Arena) (vis : List (Addr × Nat)) : Nat :=
  (((List.range arena.cells.length).filter
      (fun a => (lookupAddr vis a).isNone)).map
    (fun a => (arena.get a).childCount)).sum

/-- The children a value contributes during expansion of a document whose
references are all purely local fragments: object members (with local
references replaced by the sub-value their fragment designates inside the
root document), array elements, nothing for scalars. -/
def localChildren (arena : Arena) (schema : Addr) (a : Addr) : List Addr :=
  match arena.get a with
  | .obj ms =>
    ms.filterMap (fun m =>
      if m.1 = "$ref" then
        match arena.get m.2 with
        | .str r =>
          match resolveIn arena schema r with
          | .ok fr => some fr.2
          | .error _ => none
        | _ => none
      else some m.2)
  | .arr xs => xs
  | _ => []

/-- Whether every reference string of the document is a purely local
fragment (starts with the number sign). -/
def localOnly (arena : Arena) : Bool :=
  arena.cells.all (fun c =>
    match c with
    | .obj ms =>
      ms.all (fun m =>
        decide (m.1 ≠ "$ref") ||
        (match arena.get m.2 with
         | .str r => is_local r
         | _ => true))
    | _ => true)

/-- Reachability of a value from the schema root through the expansion
relation of a purely-local document: the distinct values the traversal must
discover. -/
inductive ReachL (arena : Arena) (schema : Addr) : Addr → Prop where
  | root : ReachL arena schema schema
  | child {a b : Addr} : ReachL arena schema a →
      b ∈ localChildren arena schema a → ReachL arena schema b

/-- A coherent scope assignment for a document set: a designated traversal
scope per value identity, such that expanding any value at its designated
scope hands every enqueued child its designated scope.  One exists whenever
each value belongs to a single document with a well-defined base-location
stack — covering same-document references, absolute references to
registered documents (the cross-document case), and absolute references
that fall back to the current resolver (the self-referential absolute
case). -/
def canonicalScopes (arena : Arena) (resolvers : List (String × Resolver))
    (docScope : Addr → Scope) : Prop :=
  ∀ (a : Addr) (slotId : Nat) (items : List QItem),
    expandNode arena resolvers (docScope a) slotId a = .ok items →
    ∀ it ∈ items, it.scope = docScope it.node

/-- Reachability of a value from the schema root through the expansion
relation under a coherent scope assignment: the distinct values the
traversal must discover, independent of how often references are
traversed.  (The queue-slot parameter of `expandNode` only stamps the
parent field of the enqueued items, so the reached values do not depend
on it.) -/
inductive ReachD (arena : Arena) (resolvers : List (String × Resolver))
    (docScope : Addr → Scope) (schema : Addr) : Addr → Prop where
  | root : ReachD arena resolvers docScope schema schema
  | child {a b : Addr} : ReachD arena resolvers docScope schema a →
      (∃ (slotId : Nat) (items : List QItem),
        expandNode arena resolvers (docScope a) slotId a = .ok items
          ∧ b ∈ items.map QItem.node) →
      ReachD arena resolvers docScope schema b

/-- Two documents referencing each other by absolute location: document A
(rooted at address 0) holds a reference to document B (rooted at address
2) and vice versa — a mutually-referential cross-document reference
cycle. -/
def mutualArena : Arena :=
  ⟨[.obj [("$ref", 1)], .str ("http://example.com/b.json"),
    .obj [("$ref", 3)], .str ("http://example.com/a.json")]⟩

/-- The resolver of document A of the mutual cycle. -/
def mutualResolverA : Resolver :=
  ⟨⟨"http", "example.com", ["a.json"], none⟩, 0⟩

/-- The resolver of document B of the mutual cycle. -/
def mutualResolverB : Resolver :=
  ⟨⟨"http", "example.com", ["b.json"], none⟩, 2⟩

/-- The pre-registered resolvers of the mutual cycle. -/
def mutualRegistry : List (String × Resolver) :=
  [("http://example.com/b.json", mutualResolverB),
   ("http://example.com/a.json", mutualResolverA)]

/-- The designated scope of each value of the mutual cycle: document A's
values live under resolver A, document B's under resolver B. -/
def mutualDocScope : Addr → Scope := fun a =>
  if a < 2 then ⟨[], mutualResolverA⟩ else ⟨[], mutualResolverB⟩

/-- The adjacency list `AdjacencyList::new` produces for the mutual
cross-document cycle: one node per document root, each referencing the
other. -/
def mutualList : AdjacencyList :=
  ⟨[none, some 0, some 2],
   [[⟨.index 0, 1⟩], [⟨.key ("$ref"), 2⟩], [⟨.key ("$ref"), 1⟩]],
   [(2, 2), (0, 1)]⟩

/-! ## Theorems -/

/-- Helper: a list of length at most one has an empty tail after `drop 1`. -/
theorem hl_drop_one_of_len_le_one {α : Type} (l : List α) (h : l.length ≤ 1) :
    l.drop 1 = [] := by
  cases l with
  | nil => rfl
  | cons x t =>
    cases t with
    | nil => rfl
    | cons y t' => simp at h

/-- C4: `RangeGraph::compress` is an unimplemented placeholder: its body is
`todo!()`, so it panics with "not yet implemented" for every input instead of
returning a compacted graph; consequently the whole `build` pipeline panics
as soon as it reaches compaction, e.g. on the schema `{"maximum": 5}`.  This
contradicts the documented contract of the compaction pass (and the
repository's own tests, which call `compress` and assert on its result). -/
theorem claim_c4_compress_unimplemented :
    (∀ rg : RangeGraph, rg.compress = .panic ("not yet implemented"))
  ∧ build maxFiveArena 0 rootResolver [] = .panic ("not yet implemented") := by
  constructor
  · intro rg; rfl
  · decide

/-- C9: a node with no outgoing edges yields the explicitly empty range
`0..0` from `range_of` — a fully constructed range of length zero. -/
theorem claim_c9_empty_range (al : AdjacencyList) (t : Nat)
    (h : al.edges.getD t [] = []) :
    al.range_of t = ⟨0, 0⟩ ∧ (al.range_of t).hi - (al.range_of t).lo = 0 := by
  unfold AdjacencyList.range_of
  rw [h]
  exact ⟨rfl, rfl⟩

/-- Witness for C9 at a concrete input: the sentinel of the empty adjacency
list has no edges and gets the empty range. -/
theorem claim_c9_witness :
    AdjacencyList.empty.range_of 0 = ⟨0, 0⟩ :=
  (claim_c9_empty_range AdjacencyList.empty 0 rfl).1

/-- C8: `Scope::build_url` joins the base with exactly the folders pushed
after the first (`folders[1..]`, in push order, via the URL join operation)
and then joins the relative reference; in particular the first folder never
participates: replacing it changes nothing. -/
theorem claim_c8_build_url (s : Scope) (base : Url) (reference : String) :
    s.build_url base reference
      = Url.join ((s.folders.drop 1).foldl Url.join base) reference
  ∧ ∀ f g rest r, Scope.build_url ⟨f :: rest, r⟩ base reference
      = Scope.build_url ⟨g :: rest, r⟩ base reference := by
  constructor
  · unfold Scope.build_url
    by_cases h : s.folders.length > 1
    · simp [h]
    · have h1 : s.folders.length ≤ 1 := by omega
      rw [hl_drop_one_of_len_le_one s.folders h1]
      simp [h]
  · intro f g rest r
    rfl

/-- Helper: the last edge target of a list of edges whose targets are the
consecutive run starting at the head's target. -/
theorem hl_getLastD_of_range' (es : List Edge) :
    ∀ (e : Edge) (τ m : Nat),
      (e :: es).map Edge.target = List.range' τ (m + 1) →
      e.target = τ ∧ (es.getLastD e).target = τ + m := by
  induction es with
  | nil =>
    intro e τ m h
    rw [List.range'_succ] at h
    simp at h
    obtain ⟨h1, h2⟩ := h
    subst h2
    exact ⟨h1, by simpa using h1⟩
  | cons e' es' ih =>
    intro e τ m h
    rw [List.range'_succ] at h
    simp only [List.map_cons, List.cons.injEq] at h
    obtain ⟨h1, h2⟩ := h
    cases m with
    | zero => simp [List.range'] at h2
    | succ m' =>
      have := ih e' (τ + 1) m' h2
      refine ⟨h1, ?_⟩
      rw [List.getLastD_cons]
      omega

/-- C3 fails on the code as stated: in the adjacency list built for the
document `{"!a": 5, "$ref": "#"}`, the root node (node 1) has two outgoing
edges, but its second edge re-targets the already-visited node 1 itself, so
`range_of` computes the empty range `2..2` whose length is not the edge
count 2. -/
theorem claim_c3_counterexample :
    AdjacencyList.new mixedChildArena 0 rootResolver [] = .ok mixedChildList
  ∧ (mixedChildList.edges.getD 1 []).length = 2
  ∧ ¬ ((mixedChildList.range_of 1).hi - (mixedChildList.range_of 1).lo
        = (mixedChildList.edges.getD 1 []).length) := by
  refine ⟨by decide, by decide, by decide⟩

/-- C3 amended: for every node with two or more outgoing edges whose targets
are consecutively increasing node ids (the shape the traversal produces when
all of a parent's children are first-visit allocations — the contiguity
invariant), the range computed by `range_of` has length equal to the number
of that node's edges, and every index inside the range is the target of
exactly one of those edges.  (As stated the claim fails when an edge
re-targets an already-visited node, e.g. through a reference.) -/
theorem claim_c3_amended (al : AdjacencyList) (t τ m : Nat) (hm : 2 ≤ m)
    (h : (al.edges.getD t []).map Edge.target = List.range' τ m) :
    (al.range_of t).hi - (al.range_of t).lo = (al.edges.getD t []).length
  ∧ ∀ i, (al.range_of t).lo ≤ i → i < (al.range_of t).hi →
      ((al.edges.getD t []).map Edge.target).count i = 1 := by
  rcases hes : al.edges.getD t [] with _ | ⟨e, es⟩
  · rw [hes] at h
    have := congrArg List.length h
    simp [List.length_range'] at this
    omega
  · rw [hes] at h
    obtain ⟨m', rfl⟩ : ∃ m', m = m' + 1 := ⟨m - 1, by omega⟩
    obtain ⟨h1, h2⟩ := hl_getLastD_of_range' es e τ m' h
    have hr : al.range_of t = ⟨τ, τ + m' + 1⟩ := by
      have hr0 : al.range_of t = ⟨e.target, (es.getLastD e).target + 1⟩ := by
        unfold AdjacencyList.range_of
        rw [hes]
      rw [hr0, h1, h2]
    have hlen : es.length + 1 = m' + 1 := by
      have := congrArg List.length h
      simpa [List.length_range'] using this
    constructor
    · rw [hr]
      simp only [List.length_cons]
      omega
    · intro i hlo hhi
      rw [hr] at hlo hhi
      rw [h]
      have hmem : i ∈ List.range' τ (m' + 1) := by
        rw [List.mem_range'_1]
        exact ⟨hlo, by simpa using hhi⟩
      exact List.count_eq_one_of_mem (List.nodup_range' _ _) hmem

/-- Witness for the amended C3: a node with two edges targeting the
consecutive ids 5 and 6 gets a range of length two. -/
theorem claim_c3_witness :
    (stairsList.range_of 1).hi - (stairsList.range_of 1).lo
      = (stairsList.edges.getD 1 []).length :=
  (claim_c3_amended stairsList 1 5 2 (by decide) (by decide)).1

/-- Helper: keyword recognition never produces a returned error — every
failure in `processEdge` is a panic. -/
theorem hl_processEdge_no_err (arena : Arena) (al : AdjacencyList)
    (rg : RangeGraph) (edge : Edge) :
    ∀ e, processEdge arena al rg edge ≠ StepOutcome.err e := by
  intro e h
  unfold processEdge at h
  repeat' split at h
  all_goals exact StepOutcome.noConfusion h

/-- Helper: processing a node's edges never produces a returned error. -/
theorem hl_processEdges_no_err (arena : Arena) (al : AdjacencyList) :
    ∀ (es : List Edge) (rg : RangeGraph) e,
      processEdges arena al es rg ≠ StepOutcome.err e := by
  intro es
  induction es with
  | nil => intro rg e h; simp [processEdges] at h
  | cons e' es' ih =>
    intro rg e h
    unfold processEdges at h
    split at h
    · exact ih _ e h
    · exact hl_processEdge_no_err arena al rg e' _ (by assumption)
    · simp at h

/-- Helper: the derivation loop never produces a returned error. -/
theorem hl_deriveAux_no_err (arena : Arena) (al : AdjacencyList) :
    ∀ (fuel : Nat) (q : List Nat) (vis : List Bool) (rg : RangeGraph) e,
      deriveAux arena al fuel q vis rg ≠ BuildOutcome.err e := by
  intro fuel
  induction fuel with
  | zero =>
    intro q vis rg e h
    cases q <;> simp [deriveAux] at h
  | succ n ih =>
    intro q vis rg e h
    cases q with
    | nil => simp [deriveAux] at h
    | cons nid rest =>
      unfold deriveAux at h
      split at h
      · exact ih _ _ _ e h
      · split at h
        · exact ih _ _ _ e h
        · split at h
          · exact ih _ _ _ e h
          · exact hl_processEdges_no_err arena al _ _ _ (by assumption)
          · simp at h

/-- C5 fails on the code as stated: on the adjacency list for the document
`{"maximum": "x"}` (a non-numeric value under `maximum`), the derivation
pass does not return a reported error — it panics via `unwrap`. -/
theorem claim_c5_counterexample :
    RangeGraph.tryFrom (maxArena (.str ("x"))) maxList = .panic unwrapMsg
  ∧ (RangeGraph.tryFrom (maxArena (.str ("x"))) maxList).isErr = false := by
  refine ⟨by decide, by decide⟩

/-- C5 amended: the derivation pass never returns an error value; a
recognized keyword with a wrongly shaped value makes it panic instead — a
non-numeric value under `maximum` (likewise `maxLength` / `minProperties`)
hits `unwrap` on `None`, a `type` value that is not a string hits `unwrap`,
and an unrecognized `type` string hits `panic!("invalid type")`; these
panics are the only failures of the derivation pass. -/
theorem claim_c5_amended :
    (∀ (arena : Arena) (al : AdjacencyList),
        (RangeGraph.tryFrom arena al).isErr = false)
  ∧ (∀ v : JVal, v.as_u64 = none →
        RangeGraph.tryFrom (maxArena v) maxList = .panic unwrapMsg)
  ∧ (∀ s : String, typeOfString s = none →
        RangeGraph.tryFrom (typeValArena (.str s)) typeList
          = .panic ("invalid type"))
  ∧ (∀ v : JVal, v.as_str = none →
        RangeGraph.tryFrom (typeValArena v) typeList = .panic unwrapMsg) := by
  refine ⟨?_, ?_, ?_, ?_⟩
  · intro arena al
    rcases hout : RangeGraph.tryFrom arena al with val | e | m | _
    · rfl
    · exact absurd hout (hl_deriveAux_no_err arena al _ _ _ _ e)
    · rfl
    · rfl
  · intro v h
    cases v with
    | num n => simp [JVal.as_u64] at h
    | null => rfl
    | bool b => rfl
    | str s => rfl
    | arr xs => rfl
    | obj ms => rfl
  · intro s h
    have e3 : RangeGraph.tryFrom (typeValArena (.str s)) typeList
        = match processEdges (typeValArena (.str s)) typeList
            [⟨.key ("type"), 2⟩] ⟨[none, none, none], [none, none, none]⟩ with
          | .ok rg' =>
            deriveAux (typeValArena (.str s)) typeList 4 [2] [true, true, false] rg'
          | .err e => .err e
          | .panic m => .panic m := by rfl
    have e4a : processEdge (typeValArena (.str s)) typeList
        ⟨[none, none, none], [none, none, none]⟩ ⟨.key ("type"), 2⟩
        = match typeOfString s with
          | some t =>
            StepOutcome.ok (RangeGraph.set_node
              ⟨[none, none, none], [none, none, none]⟩ 2 (.typeKw t))
          | none => StepOutcome.panic ("invalid type") := by rfl
    rw [h] at e4a
    rw [e3]
    unfold processEdges
    rw [e4a]
  · intro v h
    cases v with
    | str s => simp [JVal.as_str] at h
    | null => rfl
    | bool b => rfl
    | num n => rfl
    | arr xs => rfl
    | obj ms => rfl

/-- Witness for the amended C5: concrete malformed inputs panic. -/
theorem claim_c5_witness :
    RangeGraph.tryFrom (typeValArena (.str ("foo"))) typeList
      = .panic ("invalid type") :=
  (claim_c5_amended.2.2.1) ("foo") rfl

/-- C10: a member with key `$ref` whose value is not a string is silently
skipped by the member loop of `AdjacencyList::new` — expanding an object
with it produces exactly the expansion without it (no child enqueued, hence
no edge ever created for it, and no error), while any member with a
different key always contributes its enqueued child item. -/
theorem claim_c10_nonstring_ref (arena : Arena)
    (resolvers : List (String × Resolver)) (scope : Scope) (slotId : Nat)
    (pre post : List (String × Addr)) (a : Addr)
    (h : (arena.get a).as_str = none) :
    expandObject arena resolvers scope slotId (pre ++ ("$ref", a) :: post)
      = expandObject arena resolvers scope slotId (pre ++ post)
  ∧ ∀ (k : String) (b : Addr) (items : List QItem), k ≠ "$ref" →
      expandObject arena resolvers scope slotId (pre ++ (k, b) :: post)
        = .ok items →
      (⟨scope, slotId, .key k, b⟩ : QItem) ∈ items := by
  constructor
  · induction pre with
    | nil =>
      cases hv : arena.get a with
      | str s => rw [hv] at h; simp [JVal.as_str] at h
      | null => simp [expandObject, hv]
      | bool b => simp [expandObject, hv]
      | num n => simp [expandObject, hv]
      | arr xs => simp [expandObject, hv]
      | obj ms => simp [expandObject, hv]
    | cons hd tl ih =>
      obtain ⟨k, v⟩ := hd
      simp only [List.cons_append, expandObject, List.append_eq, ih]
  · induction pre with
    | nil =>
      intro k b items hk hok
      simp only [List.nil_append, expandObject, if_neg hk] at hok
      cases hrec : expandObject arena resolvers scope slotId post with
      | ok items' =>
        simp only [hrec] at hok
        cases hok
        exact List.mem_cons_self _ _
      | err e => simp only [hrec] at hok; simp at hok
      | panic m => simp only [hrec] at hok; simp at hok
    | cons hd tl ih =>
      intro k b items hk hok
      obtain ⟨k', v'⟩ := hd
      by_cases hk' : k' = "$ref"
      · subst hk'
        simp only [List.cons_append, expandObject, if_pos rfl, List.append_eq] at hok
        cases hv' : arena.get v' with
        | str s =>
          simp only [hv'] at hok
          cases hrc : refChild arena resolvers scope s with
          | ok p =>
            obtain ⟨sc', res'⟩ := p
            simp only [hrc] at hok
            cases hrec : expandObject arena resolvers scope slotId (tl ++ (k, b) :: post) with
            | ok items' =>
              simp only [hrec] at hok
              cases hok
              exact List.mem_cons_of_mem _ (ih k b items' hk hrec)
            | err e => simp only [hrec] at hok; simp at hok
            | panic m => simp only [hrec] at hok; simp at hok
          | err e => simp only [hrc] at hok; simp at hok
          | panic m => simp only [hrc] at hok; simp at hok
        | null => simp only [hv'] at hok; exact ih k b items hk hok
        | bool bb => simp only [hv'] at hok; exact ih k b items hk hok
        | num n => simp only [hv'] at hok; exact ih k b items hk hok
        | arr xs => simp only [hv'] at hok; exact ih k b items hk hok
        | obj ms => simp only [hv'] at hok; exact ih k b items hk hok
      · simp only [List.cons_append, expandObject, if_neg hk', List.append_eq] at hok
        cases hrec : expandObject arena resolvers scope slotId (tl ++ (k, b) :: post) with
        | ok items' =>
          simp only [hrec] at hok
          cases hok
          exact List.mem_cons_of_mem _ (ih k b items' hk hrec)
        | err e => simp only [hrec] at hok; simp at hok
        | panic m => simp only [hrec] at hok; simp at hok

/-- Witness for C10 at a concrete input: an object whose only member is a
`$ref` with a numeric value expands to nothing. -/
theorem claim_c10_witness :
    expandObject ⟨[.num 3]⟩ [] (Scope.new rootResolver) 1 [("$ref", 0)]
      = expandObject ⟨[.num 3]⟩ [] (Scope.new rootResolver) 1 [] :=
  (claim_c10_nonstring_ref ⟨[.num 3]⟩ [] (Scope.new rootResolver) 1 [] [] 0 rfl).1

/-- Helper: the relative-reference branch of the traversal aborts through the
`expect("Unknown reference")` when the built absolute location is neither
claimed by the current resolver nor registered. -/
theorem hl_refChild_unknown (arena : Arena)
    (resolvers : List (String × Resolver)) (scope : Scope)
    (reference loc : String) (u : Url)
    (h1 : Reference.tryFrom reference = .ok (.relative loc))
    (h2 : is_local loc = false)
    (h3 : scope.build_url scope.resolver.scope loc = u)
    (h4 : scope.resolver.contains u.render = false)
    (h5 : lookupRes resolvers u.render = none) :
    refChild arena resolvers scope reference = .panic ("Unknown reference") := by
  simp only [refChild, h1, h2, h3, h4, h5, Bool.false_eq_true, if_false]

/-- C7: a reference whose built absolute location is not claimed by the
current resolver and has no entry in the resolver registry makes
`AdjacencyList::new` abort the program (the `expect("Unknown reference")`
invariant failure), rather than return a recoverable error value: the
reference branch yields the `panic` outcome — never the `err` outcome — and
the traversal of a document holding such a reference at its root panics. -/
theorem claim_c7_unknown_reference (arena : Arena)
    (resolvers : List (String × Resolver)) (res : Resolver)
    (reference loc : String) (u : Url)
    (h1 : Reference.tryFrom reference = .ok (.relative loc))
    (h2 : is_local loc = false)
    (h3 : (Scope.new res).build_url res.scope loc = u)
    (h4 : res.contains u.render = false)
    (h5 : lookupRes resolvers u.render = none) :
    refChild arena resolvers (Scope.new res) reference = .panic ("Unknown reference")
  ∧ (∀ e, refChild arena resolvers (Scope.new res) reference ≠ .err e)
  ∧ AdjacencyList.new ⟨[.obj [("$ref", 1)], .str reference]⟩ 0 res resolvers
      = .panic ("Unknown reference") := by
  have key : refChild arena resolvers (Scope.new res) reference
      = .panic ("Unknown reference") :=
    hl_refChild_unknown arena resolvers (Scope.new res) reference loc u h1 h2 h3 h4 h5
  have key2 : refChild (⟨[.obj [("$ref", 1)], .str reference]⟩ : Arena) resolvers
      (Scope.new res) reference = .panic ("Unknown reference") :=
    hl_refChild_unknown _ resolvers (Scope.new res) reference loc u h1 h2 h3 h4 h5
  refine ⟨key, ?_, ?_⟩
  · intro e h
    rw [key] at h
    exact StepOutcome.noConfusion h
  · show (match
        (match refChild (⟨[.obj [("$ref", 1)], .str reference]⟩ : Arena) resolvers
            (Scope.new res) reference with
         | StepOutcome.ok (scope', resolved) =>
           (match expandObject (⟨[.obj [("$ref", 1)], .str reference]⟩ : Arena)
               resolvers (Scope.new res) 1 ([] : List (String × Addr)) with
            | StepOutcome.ok items =>
              StepOutcome.ok
                ((⟨scope', 1, .key ("$ref"), resolved⟩ : QItem) :: items)
            | StepOutcome.err e => StepOutcome.err e
            | StepOutcome.panic m => StepOutcome.panic m)
         | StepOutcome.err e => StepOutcome.err e
         | StepOutcome.panic m => StepOutcome.panic m) with
       | StepOutcome.ok children =>
         newAux (⟨[.obj [("$ref", 1)], .str reference]⟩ : Arena) resolvers 2
           ([] ++ children)
           ⟨[none, some 0], [[⟨.index 0, 1⟩], []], [(0, 1)]⟩
       | StepOutcome.err e => BuildOutcome.err e
       | StepOutcome.panic m => BuildOutcome.panic m)
      = BuildOutcome.panic ("Unknown reference")
    rw [key2]

/-- Witness for C7 at a concrete input: the relative reference `other.json`
inside the document of `unknownRefResolver`, with an empty registry, panics. -/
theorem claim_c7_witness :
    refChild ⟨[]⟩ [] (Scope.new unknownRefResolver) "other.json"
      = .panic ("Unknown reference") :=
  (claim_c7_unknown_reference ⟨[]⟩ [] unknownRefResolver ("other.json") ("other.json")
    ⟨"http", "a", ["other.json"], none⟩
    (by decide) (by decide) (by decide) (by decide) (by decide)).1

/-- C6: a root document whose reference keyword holds the absolute location
of a distinct pre-registered document compiles to an adjacency list holding
a node for the target document's designated sub-value (address 2, the value
enqueued in place of the reference string), while the reference string
itself (address 1) never becomes a node. -/
theorem claim_c6_cross_document (r : String) (v : JVal) (res : Resolver)
    (h1 : hasScheme r = true)
    (h2 : afterHash r.data = none)
    (h3 : res.root = 2)
    (h4 : v.childCount = 0) :
    AdjacencyList.new (crossArena r v) 0 rootResolver [(r, res)] = .ok crossList
  ∧ some 2 ∈ crossList.nodes ∧ ¬ some 1 ∈ crossList.nodes := by
  refine ⟨?_, by decide, by decide⟩
  have key : refChild (crossArena r v) [(r, res)] (Scope.new rootResolver) r
      = .ok (Scope.with_folders res [], 2) := by
    simp only [refChild, Reference.tryFrom, h1, if_pos, lookupRes, if_pos rfl,
      Resolver.resolve, resolveIn, h2, h3]
  have hfuel : fuelFor (crossArena r v) = 3 := by
    simp [fuelFor, totalWeight, Arena.get, crossArena, List.range_succ, h4]
    try rfl
  rw [show AdjacencyList.new (crossArena r v) 0 rootResolver [(r, res)]
      = newAux (crossArena r v) [(r, res)] (fuelFor (crossArena r v))
          [⟨Scope.new rootResolver, 0, .index 0, 0⟩] AdjacencyList.empty from rfl,
    hfuel]
  have e1 : newAux (crossArena r v) [(r, res)] 3
      [⟨Scope.new rootResolver, 0, .index 0, 0⟩] AdjacencyList.empty
      = match
          (match refChild (crossArena r v) [(r, res)] (Scope.new rootResolver) r with
           | StepOutcome.ok (scope', resolved) =>
             (match expandObject (crossArena r v) [(r, res)]
                 (Scope.new rootResolver) 1 ([] : List (String × Addr)) with
              | StepOutcome.ok items =>
                StepOutcome.ok
                  ((⟨scope', 1, .key ("$ref"), resolved⟩ : QItem) :: items)
              | StepOutcome.err e => StepOutcome.err e
              | StepOutcome.panic m => StepOutcome.panic m)
           | StepOutcome.err e => StepOutcome.err e
           | StepOutcome.panic m => StepOutcome.panic m) with
        | StepOutcome.ok children =>
          newAux (crossArena r v) [(r, res)] 2 ([] ++ children)
            ⟨[none, some 0], [[⟨.index 0, 1⟩], []], [(0, 1)]⟩
        | StepOutcome.err e => BuildOutcome.err e
        | StepOutcome.panic m => BuildOutcome.panic m := by rfl
  rw [e1, key]
  show newAux (crossArena r v) [(r, res)] 2
      [⟨Scope.with_folders res [], 1, .key ("$ref"), 2⟩]
      ⟨[none, some 0], [[⟨.index 0, 1⟩], []], [(0, 1)]⟩
    = .ok crossList
  have e2 : newAux (crossArena r v) [(r, res)] 2
      [⟨Scope.with_folders res [], 1, .key ("$ref"), 2⟩]
      ⟨[none, some 0], [[⟨.index 0, 1⟩], []], [(0, 1)]⟩
      = match expandNode (crossArena r v) [(r, res)] (Scope.with_folders res [])
          2 2 with
        | StepOutcome.ok children =>
          newAux (crossArena r v) [(r, res)] 1 ([] ++ children)
            ⟨[none, some 0, some 2],
             [[⟨.index 0, 1⟩], [⟨.key ("$ref"), 2⟩], []], [(2, 2), (0, 1)]⟩
        | StepOutcome.err e => BuildOutcome.err e
        | StepOutcome.panic m => BuildOutcome.panic m := by rfl
  rw [e2]
  have e3 : expandNode (crossArena r v) [(r, res)] (Scope.with_folders res []) 2 2
      = StepOutcome.ok [] := by
    cases v with
    | obj ms =>
      have hms : ms = [] := List.length_eq_zero.mp h4
      subst hms
      rfl
    | arr xs =>
      have hxs : xs = [] := List.length_eq_zero.mp h4
      subst hxs
      rfl
    | null => rfl
    | bool b => rfl
    | num n => rfl
    | str s => rfl
  rw [e3]
  rfl

/-- Witness for C6 at a concrete input: the reference
`http://example.com/target.json` to the registered `targetResolver`. -/
theorem claim_c6_witness :
    some 2 ∈ crossList.nodes :=
  (claim_c6_cross_document ("http://example.com/target.json") (.num 7)
    targetResolver (by decide) (by decide) rfl rfl).2.1

/-- Helper: `push` on an already-visited value returns the recorded id with a
used slot and only appends the parent edge. -/
theorem hl_push_used (al : AdjacencyList) (p : Nat) (l : EdgeLabel) (a : Addr)
    (id : Nat) (h : lookupAddr al.visited a = some id) :
    al.push p l a
      = (⟨id, .used⟩, ⟨al.nodes, addEdge al.edges p ⟨l, id⟩, al.visited⟩) := by
  simp [AdjacencyList.push, h]

/-- Helper: `push` on a fresh value allocates the next id, appends the node,
an empty edge list, the visited entry, and the parent edge. -/
theorem hl_push_new (al : AdjacencyList) (p : Nat) (l : EdgeLabel) (a : Addr)
    (h : lookupAddr al.visited a = none) :
    al.push p l a
      = (⟨al.nodes.length, .new⟩,
         ⟨al.nodes ++ [some a],
          addEdge (al.edges ++ [[]]) p ⟨l, al.nodes.length⟩,
          (a, al.nodes.length) :: al.visited⟩) := by
  simp [AdjacencyList.push, h]

/-- Helper: the empty-queue equation of the traversal loop. -/
theorem hl_newAux_nil (arena : Arena) (resolvers : List (String × Resolver))
    (fuel : Nat) (al : AdjacencyList) :
    newAux arena resolvers fuel [] al = .ok al := by
  cases fuel <;> rfl

/-- Helper: the step equation of the traversal loop on a visited value. -/
theorem hl_newAux_used (arena : Arena) (resolvers : List (String × Resolver))
    (fuel : Nat) (item : QItem) (rest : List QItem) (al : AdjacencyList)
    (id : Nat) (h : lookupAddr al.visited item.node = some id) :
    newAux arena resolvers (fuel + 1) (item :: rest) al
      = newAux arena resolvers fuel rest
          ⟨al.nodes, addEdge al.edges item.parent ⟨item.label, id⟩, al.visited⟩ := by
  simp [newAux, hl_push_used al item.parent item.label item.node id h]

/-- Helper: the step equation of the traversal loop on a fresh value. -/
theorem hl_newAux_new (arena : Arena) (resolvers : List (String × Resolver))
    (fuel : Nat) (item : QItem) (rest : List QItem) (al : AdjacencyList)
    (h : lookupAddr al.visited item.node = none) :
    newAux arena resolvers (fuel + 1) (item :: rest) al
      = match expandNode arena resolvers item.scope al.nodes.length item.node with
        | .ok children =>
          newAux arena resolvers fuel (rest ++ children)
            ⟨al.nodes ++ [some item.node],
             addEdge (al.edges ++ [[]]) item.parent ⟨item.label, al.nodes.length⟩,
             (item.node, al.nodes.length) :: al.visited⟩
        | .err e => .err e
        | .panic m => .panic m := by
  simp only [newAux, hl_push_new al item.parent item.label item.node h]

/-- Helper: a successful lookup index is within the node array. -/
theorem hl_get?_some_lt {α : Type} (l : List α) (n : Nat) (x : α)
    (h : l.get? n = some x) : n < l.length := by
  by_contra hc
  rw [List.get?_eq_none.mpr (Nat.le_of_not_lt hc)] at h
  exact Option.noConfusion h

/-- Helper: membership in a defaulted edge-list lookup comes from a real
slot of the edge array. -/
theorem hl_mem_getD (l : List (List Edge)) (p : Nat) (e : Edge)
    (h : e ∈ l.getD p []) : ∃ es, l.get? p = some es ∧ e ∈ es := by
  rcases hg : l.get? p with _ | es
  · rw [List.getD_eq_default] at h
    · exact absurd h (List.not_mem_nil e)
    · exact List.get?_eq_none.mp hg
  · refine ⟨es, rfl, ?_⟩
    have : l.getD p [] = es := by
      unfold List.getD
      rw [hg]
      rfl
    rwa [this] at h

/-- Helper: extending the visited map with a fresh key preserves lookups. -/
theorem hl_lookup_cons_of_ne (vis : List (Addr × Nat)) (a a' : Addr)
    (n t : Nat) (hnone : lookupAddr vis a = none)
    (h : lookupAddr vis a' = some t) :
    lookupAddr ((a, n) :: vis) a' = some t := by
  unfold lookupAddr
  by_cases ha : a = a'
  · subst ha
    rw [hnone] at h
    exact Option.noConfusion h
  · rw [if_neg ha]
    exact h

/-- Helper: the structural invariant holds for the initial adjacency list. -/
theorem hl_inv_empty : ListInv AdjacencyList.empty := by
  constructor
  · intro a id h
    exact Option.noConfusion h
  · intro id a h
    rcases id with _ | id
    · exact Option.noConfusion (Option.some.inj h)
    · rcases id <;> exact Option.noConfusion h
  · intro es e hes he
    rcases List.mem_singleton.mp hes
    exact absurd he (List.not_mem_nil e)

/-- Helper: pushing an edge to an already-visited node keeps the invariant. -/
theorem hl_inv_used (al : AdjacencyList) (p : Nat) (l : EdgeLabel) (a : Addr)
    (id : Nat) (inv : ListInv al) (h : lookupAddr al.visited a = some id) :
    ListInv ⟨al.nodes, addEdge al.edges p ⟨l, id⟩, al.visited⟩ := by
  constructor
  · exact inv.vis_sound
  · exact inv.nodes_sound
  · intro es e hes he
    rcases List.mem_or_eq_of_mem_set hes with hmem | rfl
    · exact inv.edge_sound es e hmem he
    · rcases List.mem_append.mp he with hold | hnew
      · obtain ⟨es', hes', he'⟩ := hl_mem_getD al.edges p e hold
        exact inv.edge_sound es' e (List.get?_mem hes') he'
      · rcases List.mem_singleton.mp hnew
        exact ⟨a, h⟩

/-- Helper: allocating a fresh node keeps the invariant. -/
theorem hl_inv_new (al : AdjacencyList) (p : Nat) (l : EdgeLabel) (a : Addr)
    (inv : ListInv al) (h : lookupAddr al.visited a = none) :
    ListInv ⟨al.nodes ++ [some a],
      addEdge (al.edges ++ [[]]) p ⟨l, al.nodes.length⟩,
      (a, al.nodes.length) :: al.visited⟩ := by
  constructor
  · intro a' id' h'
    unfold lookupAddr at h'
    by_cases ha : a = a'
    · subst ha
      rw [if_pos rfl] at h'
      cases h'
      exact List.get?_concat_length al.nodes (some a)
    · rw [if_neg ha] at h'
      have hold := inv.vis_sound a' id' h'
      rw [List.get?_append (hl_get?_some_lt al.nodes id' _ hold)]
      exact hold
  · intro id' a' h'
    rcases Nat.lt_trichotomy id' al.nodes.length with hlt | heq | hgt
    · rw [List.get?_append hlt] at h'
      have hold := inv.nodes_sound id' a' h'
      exact hl_lookup_cons_of_ne al.visited a a' al.nodes.length id' h hold
    · subst heq
      rw [List.get?_concat_length] at h'
      cases Option.some.inj h'
      unfold lookupAddr
      rw [if_pos rfl]
    · have : (al.nodes ++ [some a]).get? id' = none := by
        rw [List.get?_eq_none]
        simp
        omega
      rw [this] at h'
      exact Option.noConfusion h'
  · intro es e hes he
    rcases List.mem_or_eq_of_mem_set hes with hmem | rfl
    · rcases List.mem_append.mp hmem with hmem' | hsing
      · obtain ⟨a', ha'⟩ := inv.edge_sound es e hmem' he
        exact ⟨a', hl_lookup_cons_of_ne al.visited a a' al.nodes.length _ h ha'⟩
      · rcases List.mem_singleton.mp hsing
        exact absurd he (List.not_mem_nil e)
    · rcases List.mem_append.mp he with hold | hnew
      · obtain ⟨es', hes', he'⟩ := hl_mem_getD (al.edges ++ [[]]) p e hold
        rcases List.mem_append.mp (List.get?_mem hes') with hmem' | hsing
        · obtain ⟨a', ha'⟩ := inv.edge_sound es' e hmem' he'
          exact ⟨a', hl_lookup_cons_of_ne al.visited a a' al.nodes.length _ h ha'⟩
        · rcases List.mem_singleton.mp hsing
          exact absurd he' (List.not_mem_nil e)
      · rcases List.mem_singleton.mp hnew
        refine ⟨a, ?_⟩
        unfold lookupAddr
        rw [if_pos rfl]

/-- Helper: the traversal loop preserves the structural invariant. -/
theorem hl_newAux_inv (arena : Arena) (resolvers : List (String × Resolver)) :
    ∀ (fuel : Nat) (queue : List QItem) (al al' : AdjacencyList),
      ListInv al → newAux arena resolvers fuel queue al = .ok al' →
      ListInv al' := by
  intro fuel
  induction fuel with
  | zero =>
    intro queue al al' inv hok
    cases queue with
    | nil =>
      rw [hl_newAux_nil] at hok
      cases hok
      exact inv
    | cons item rest => exact absurd hok (by simp [newAux])
  | succ n ih =>
    intro queue al al' inv hok
    cases queue with
    | nil =>
      rw [hl_newAux_nil] at hok
      cases hok
      exact inv
    | cons item rest =>
      rcases h : lookupAddr al.visited item.node with _ | id
      · rw [hl_newAux_new arena resolvers n item rest al h] at hok
        rcases hex : expandNode arena resolvers item.scope al.nodes.length
            item.node with children | e | m <;> rw [hex] at hok
        · exact ih _ _ _
            (hl_inv_new al item.parent item.label item.node inv h) hok
        · exact absurd hok (by simp)
        · exact absurd hok (by simp)
      · rw [hl_newAux_used arena resolvers n item rest al id h] at hok
        exact ih _ _ _
          (hl_inv_used al item.parent item.label item.node id inv h) hok

/-- C1: identity deduplication.  In every adjacency list `AdjacencyList::new`
produces: (1) each underlying value has at most one node — two node slots
holding the same identity coincide; (2) every edge targets the unique node
registered in the visited map for some value, so all paths reaching the same
underlying value have their edges target that one node id; (3) `push` on an
already-visited value hands back a used slot and allocates nothing; and
(4) the traversal expands children only on a first visit: a dequeued item
whose value is already visited contributes its parent edge and nothing else. -/
theorem claim_c1_dedup (arena : Arena) (schema : Addr) (root : Resolver)
    (resolvers : List (String × Resolver)) (al : AdjacencyList)
    (h : AdjacencyList.new arena schema root resolvers = .ok al) :
    (∀ (a : Addr) (i j : Nat), al.nodes.get? i = some (some a) →
        al.nodes.get? j = some (some a) → i = j)
  ∧ (∀ es e, es ∈ al.edges → e ∈ es →
        ∃ a, al.nodes.get? e.target = some (some a)
          ∧ lookupAddr al.visited a = some e.target)
  ∧ (∀ (al' : AdjacencyList) (p : Nat) (l : EdgeLabel) (a : Addr) (id : Nat),
        lookupAddr al'.visited a = some id →
        (al'.push p l a).1.state = SlotState.used
          ∧ (al'.push p l a).2.nodes = al'.nodes
          ∧ (al'.push p l a).2.visited = al'.visited)
  ∧ (∀ (fuel : Nat) (item : QItem) (rest : List QItem) (al' : AdjacencyList)
        (id : Nat), lookupAddr al'.visited item.node = some id →
        newAux arena resolvers (fuel + 1) (item :: rest) al'
          = newAux arena resolvers fuel rest
              (al'.push item.parent item.label item.node).2) := by
  have inv : ListInv al :=
    hl_newAux_inv arena resolvers (fuelFor arena) _ _ al hl_inv_empty h
  refine ⟨?_, ?_, ?_, ?_⟩
  · intro a i j hi hj
    have h1 := inv.nodes_sound i a hi
    have h2 := inv.nodes_sound j a hj
    rw [h1] at h2
    exact Option.some.inj h2
  · intro es e hes he
    obtain ⟨a, ha⟩ := inv.edge_sound es e hes he
    exact ⟨a, inv.vis_sound a e.target ha, ha⟩
  · intro al' p l a id hid
    rw [hl_push_used al' p l a id hid]
    exact ⟨rfl, rfl, rfl⟩
  · intro fuel item rest al' id hid
    rw [hl_newAux_used arena resolvers fuel item rest al' id hid,
      hl_push_used al' item.parent item.label item.node id hid]

/-- Witness for C1 at a concrete input: the document
`{"a": {"$ref": "#/c"}, "b": {"$ref": "#/c"}, "c": 5}`, in which two paths
reach the value at address 3 by identity, and its computed adjacency list. -/
theorem claim_c1_witness :
    (∀ (a : Addr) (i j : Nat), sharedRefList.nodes.get? i = some (some a) →
        sharedRefList.nodes.get? j = some (some a) → i = j)
  ∧ (∀ es e, es ∈ sharedRefList.edges → e ∈ es →
        ∃ a, sharedRefList.nodes.get? e.target = some (some a)
          ∧ lookupAddr sharedRefList.visited a = some e.target) := by
  have := claim_c1_dedup sharedRefArena 0 rootResolver [] sharedRefList
    (by decide)
  exact ⟨this.1, this.2.1⟩

/-- Helper: expanding an object's members enqueues at most one item per
member. -/
theorem hl_expandObject_len (arena : Arena)
    (resolvers : List (String × Resolver)) (scope : Scope) (slotId : Nat) :
    ∀ (ms : List (String × Addr)) (items : List QItem),
      expandObject arena resolvers scope slotId ms = .ok items →
      items.length ≤ ms.length := by
  intro ms
  induction ms with
  | nil =>
    intro items h
    cases h
    exact Nat.le_refl 0
  | cons m rest ih =>
    intro items h
    obtain ⟨k, v⟩ := m
    by_cases hk : k = "$ref"
    · subst hk
      simp only [expandObject, if_pos rfl] at h
      cases hv : arena.get v with
      | str s =>
        simp only [hv] at h
        cases hrc : refChild arena resolvers scope s with
        | ok p =>
          obtain ⟨sc', res'⟩ := p
          simp only [hrc] at h
          cases hrec : expandObject arena resolvers scope slotId rest with
          | ok items' =>
            simp only [hrec] at h
            cases h
            exact Nat.succ_le_succ (ih items' hrec)
          | err e => simp only [hrec] at h; simp at h
          | panic m => simp only [hrec] at h; simp at h
        | err e => simp only [hrc] at h; simp at h
        | panic m => simp only [hrc] at h; simp at h
      | null => simp only [hv] at h; exact Nat.le_succ_of_le (ih items h)
      | bool b => simp only [hv] at h; exact Nat.le_succ_of_le (ih items h)
      | num n => simp only [hv] at h; exact Nat.le_succ_of_le (ih items h)
      | arr xs => simp only [hv] at h; exact Nat.le_succ_of_le (ih items h)
      | obj ms' => simp only [hv] at h; exact Nat.le_succ_of_le (ih items h)
    · simp only [expandObject, if_neg hk] at h
      cases hrec : expandObject arena resolvers scope slotId rest with
      | ok items' =>
        simp only [hrec] at h
        cases h
        exact Nat.succ_le_succ (ih items' hrec)
      | err e => simp only [hrec] at h; simp at h
      | panic m => simp only [hrec] at h; simp at h

/-- Helper: a value enqueues at most its child count. -/
theorem hl_expandNode_len (arena : Arena)
    (resolvers : List (String × Resolver)) (scope : Scope) (slotId : Nat)
    (node : Addr) (items : List QItem)
    (h : expandNode arena resolvers scope slotId node = .ok items) :
    items.length ≤ (arena.get node).childCount := by
  cases hv : arena.get node with
  | obj ms =>
    simp only [expandNode, hv] at h
    exact hl_expandObject_len arena resolvers _ slotId ms items h
  | arr xs =>
    simp only [expandNode, hv] at h
    cases h
    simp [hv, JVal.childCount, List.enum_length]
  | null => simp only [expandNode, hv] at h; cases h; simp
  | bool b => simp only [expandNode, hv] at h; cases h; simp
  | num n => simp only [expandNode, hv] at h; cases h; simp
  | str s => simp only [expandNode, hv] at h; cases h; simp

/-- Helper: removing one newly satisfied element from a filtered weighted
sum. -/
theorem hl_sum_filter_remove (w : Nat → Nat) (p q : Nat → Bool) (a : Nat) :
    ∀ (l : List Nat), l.Nodup → p a = true →
      (∀ x ∈ l, q x = if x = a then false else p x) →
      ((l.filter p).map w).sum
        = ((l.filter q).map w).sum + (if a ∈ l then w a else 0) := by
  intro l
  induction l with
  | nil => intro _ _ _; simp
  | cons x rest ih =>
    intro hnd hpa hq
    have hndr := (List.nodup_cons.mp hnd).2
    have hxr := (List.nodup_cons.mp hnd).1
    have hqx := hq x (List.mem_cons_self x rest)
    by_cases hxa : x = a
    · subst hxa
      have hqx' : q x = false := by rw [hqx, if_pos rfl]
      have hrest : rest.filter q = rest.filter p := by
        apply List.filter_congr
        intro y hy
        rw [hq y (List.mem_cons_of_mem x hy),
          if_neg (fun (hya : y = x) => hxr (hya ▸ hy))]
      rw [List.filter_cons_of_pos (by rw [hpa]),
        List.filter_cons_of_neg (by rw [hqx']; exact Bool.false_ne_true),
        hrest, if_pos (List.mem_cons_self x rest)]
      simp only [List.map_cons, List.sum_cons]
      omega
    · have hqx' : q x = p x := by rw [hqx, if_neg hxa]
      have hiff : (a ∈ x :: rest) ↔ (a ∈ rest) := by
        constructor
        · intro hh
          rcases List.mem_cons.mp hh with h1 | h1
          · exact absurd h1.symm hxa
          · exact h1
        · exact List.mem_cons_of_mem x
      have ihr := ih hndr hpa (fun y hy => hq y (List.mem_cons_of_mem x hy))
      by_cases hpx : p x = true
      · rw [List.filter_cons_of_pos (by rw [hpx]),
          List.filter_cons_of_pos (by rw [hqx', hpx])]
        simp only [List.map_cons, List.sum_cons]
        rw [ihr]
        by_cases hm : a ∈ rest
        · rw [if_pos hm, if_pos (hiff.mpr hm)]
          omega
        · rw [if_neg hm, if_neg (fun hh => hm (hiff.mp hh))]
          omega
      · have hpx' : p x = false := Bool.eq_false_iff.mpr hpx
        rw [List.filter_cons_of_neg (by rw [hpx']; exact Bool.false_ne_true),
          List.filter_cons_of_neg (by rw [hqx']; exact hpx)]
        rw [ihr]
        by_cases hm : a ∈ rest
        · rw [if_pos hm, if_pos (hiff.mpr hm)]
        · rw [if_neg hm, if_neg (fun hh => hm (hiff.mp hh))]

/-- Helper: a purely local fragment reference carries no scheme. -/
theorem hl_local_not_scheme (r : String) (h : is_local r = true) :
    hasScheme r = false := by
  unfold is_local at h
  unfold hasScheme
  rcases hd : r.data with _ | ⟨c, tl⟩
  · rw [hd] at h
    exact absurd h (by simp)
  · simp only [hd] at h
    have hc : c = '#' := by simpa using h
    subst hc
    have ht : List.takeWhile (fun c => !(c == '#')) ('#' :: tl) = [] := by
      rw [List.takeWhile_cons]
      simp
    rw [ht]
    decide

/-- Helper: extracting the local-reference condition for one object of a
purely-local document. -/
theorem hl_localOnly_spec (arena : Arena) (hlo : localOnly arena = true)
    (a : Addr) (ms : List (String × Addr)) (hget : arena.get a = .obj ms) :
    ∀ p ∈ ms, p.1 = "$ref" → ∀ r, arena.get p.2 = .str r →
      is_local r = true := by
  intro p hp hkey r hstr
  unfold Arena.get at hget
  rcases hga : arena.cells.get? a with _ | c
  · rw [List.getD_eq_default _ _ (List.get?_eq_none.mp hga)] at hget
    exact absurd hget (by simp)
  · have hcd : arena.cells.getD a JVal.null = c := by
      unfold List.getD
      rw [hga]
      rfl
    rw [hcd] at hget
    subst hget
    have hmem : JVal.obj ms ∈ arena.cells := List.get?_mem hga
    have hall := (List.all_eq_true.mp hlo) _ hmem
    simp only at hall
    have hpm := (List.all_eq_true.mp hall) p hp
    simp only [hkey, hstr] at hpm
    simpa using hpm

/-- Helper: on a purely local reference the reference branch resolves inside
the current resolver and keeps it. -/
theorem hl_refChild_local (arena : Arena)
    (resolvers : List (String × Resolver)) (scope : Scope) (r : String)
    (h : is_local r = true) :
    refChild arena resolvers scope r
      = match resolveIn arena scope.resolver.root r with
        | .ok fr => .ok (Scope.with_folders scope.resolver fr.1, fr.2)
        | .error e => .err e := by
  have hns := hl_local_not_scheme r h
  simp only [refChild, Reference.tryFrom, hns, Bool.false_eq_true, if_false, h,
    if_true, Resolver.resolve]
  cases hres : resolveIn arena scope.resolver.root r with
  | ok fr =>
    obtain ⟨folders, resolved⟩ := fr
    rfl
  | error e => rfl

/-- Helper: under purely local references, expanding an object enqueues
exactly the member values (with reference members replaced by their resolved
sub-values) under scopes that keep the root resolver. -/
theorem hl_expandObject_local (arena : Arena)
    (resolvers : List (String × Resolver)) (root : Resolver) (schema : Addr)
    (hroot : root.root = schema) (scope : Scope) (hs : scope.resolver = root)
    (slotId : Nat) :
    ∀ (ms : List (String × Addr)) (items : List QItem),
      (∀ p ∈ ms, p.1 = "$ref" → ∀ r, arena.get p.2 = .str r →
        is_local r = true) →
      expandObject arena resolvers scope slotId ms = .ok items →
      items.map QItem.node
          = ms.filterMap (fun m =>
              if m.1 = "$ref" then
                match arena.get m.2 with
                | .str r =>
                  match resolveIn arena schema r with
                  | .ok fr => some fr.2
                  | .error _ => none
                | _ => none
              else some m.2)
        ∧ ∀ it ∈ items, it.scope.resolver = root := by
  intro ms
  induction ms with
  | nil =>
    intro items _ h
    cases h
    exact ⟨rfl, fun it hit => absurd hit (List.not_mem_nil it)⟩
  | cons m rest ih =>
    intro items hms h
    obtain ⟨k, v⟩ := m
    by_cases hk : k = "$ref"
    · subst hk
      simp only [expandObject, if_pos rfl] at h
      cases hv : arena.get v with
      | str s =>
        simp only [hv] at h
        have hloc : is_local s = true :=
          hms ("$ref", v) (List.mem_cons_self _ _) rfl s hv
        rw [hl_refChild_local arena resolvers scope s hloc, hs, hroot] at h
        cases hres : resolveIn arena schema s with
        | ok fr =>
          simp only [hres] at h
          cases hrec : expandObject arena resolvers scope slotId rest with
          | ok items' =>
            simp only [hrec] at h
            cases h
            obtain ⟨hmap, hsc⟩ := ih items'
              (fun p hp => hms p (List.mem_cons_of_mem _ hp)) hrec
            constructor
            · simp only [List.map_cons, hmap, List.filterMap_cons, hv, hres]
              simp
            · intro it hit
              rcases List.mem_cons.mp hit with rfl | hit'
              · rfl
              · exact hsc it hit'
          | err e => simp only [hrec] at h; simp at h
          | panic mm => simp only [hrec] at h; simp at h
        | error e =>
          simp only [hres] at h
          simp at h
      | null =>
        simp only [hv] at h
        obtain ⟨hmap, hsc⟩ := ih items
          (fun p hp => hms p (List.mem_cons_of_mem _ hp)) h
        exact ⟨by simp [List.filterMap_cons, hv, hmap], hsc⟩
      | bool b =>
        simp only [hv] at h
        obtain ⟨hmap, hsc⟩ := ih items
          (fun p hp => hms p (List.mem_cons_of_mem _ hp)) h
        exact ⟨by simp [List.filterMap_cons, hv, hmap], hsc⟩
      | num n =>
        simp only [hv] at h
        obtain ⟨hmap, hsc⟩ := ih items
          (fun p hp => hms p (List.mem_cons_of_mem _ hp)) h
        exact ⟨by simp [List.filterMap_cons, hv, hmap], hsc⟩
      | arr xs =>
        simp only [hv] at h
        obtain ⟨hmap, hsc⟩ := ih items
          (fun p hp => hms p (List.mem_cons_of_mem _ hp)) h
        exact ⟨by simp [List.filterMap_cons, hv, hmap], hsc⟩
      | obj ms' =>
        simp only [hv] at h
        obtain ⟨hmap, hsc⟩ := ih items
          (fun p hp => hms p (List.mem_cons_of_mem _ hp)) h
        exact ⟨by simp [List.filterMap_cons, hv, hmap], hsc⟩
    · simp only [expandObject, if_neg hk] at h
      cases hrec : expandObject arena resolvers scope slotId rest with
      | ok items' =>
        simp only [hrec] at h
        cases h
        obtain ⟨hmap, hsc⟩ := ih items'
          (fun p hp => hms p (List.mem_cons_of_mem _ hp)) hrec
        constructor
        · simp only [List.map_cons, hmap, List.filterMap_cons, if_neg hk]
        · intro it hit
          rcases List.mem_cons.mp hit with rfl | hit'
          · exact hs
          · exact hsc it hit'
      | err e => simp only [hrec] at h; simp at h
      | panic mm => simp only [hrec] at h; simp at h

/-- Helper: the scope tracker never changes the active resolver. -/
theorem hl_track_folder_resolver (arena : Arena) (scope : Scope)
    (ms : List (String × Addr)) :
    (scope.track_folder arena ms).resolver = scope.resolver := by
  unfold Scope.track_folder
  cases id_of_object arena ms <;> rfl

/-- Helper: under purely local references, a value's expansion enqueues
exactly its local children, all under the root resolver. -/
theorem hl_expandNode_local (arena : Arena)
    (resolvers : List (String × Resolver)) (root : Resolver) (schema : Addr)
    (hroot : root.root = schema) (hlo : localOnly arena = true) (scope : Scope)
    (hs : scope.resolver = root) (slotId : Nat) (a : Addr)
    (items : List QItem)
    (h : expandNode arena resolvers scope slotId a = .ok items) :
    items.map QItem.node = localChildren arena schema a
  ∧ ∀ it ∈ items, it.scope.resolver = root := by
  cases hv : arena.get a with
  | obj ms =>
    simp only [expandNode, hv] at h
    have hs' : (scope.track_folder arena ms).resolver = root := by
      rw [hl_track_folder_resolver]
      exact hs
    have hms := hl_localOnly_spec arena hlo a ms hv
    have := hl_expandObject_local arena resolvers root schema hroot
      (scope.track_folder arena ms) hs' slotId ms items hms h
    unfold localChildren
    rw [hv]
    exact this
  | arr xs =>
    simp only [expandNode, hv] at h
    cases h
    constructor
    · unfold localChildren
      rw [hv]
      rw [List.map_map]
      exact List.enum_map_snd xs
    · intro it hit
      obtain ⟨p, _, rfl⟩ := List.mem_map.mp hit
      exact hs
  | null =>
    simp only [expandNode, hv] at h
    cases h
    exact ⟨by simp [localChildren, hv], fun it hit => absurd hit (List.not_mem_nil it)⟩
  | bool b =>
    simp only [expandNode, hv] at h
    cases h
    exact ⟨by simp [localChildren, hv], fun it hit => absurd hit (List.not_mem_nil it)⟩
  | num n =>
    simp only [expandNode, hv] at h
    cases h
    exact ⟨by simp [localChildren, hv], fun it hit => absurd hit (List.not_mem_nil it)⟩
  | str s =>
    simp only [expandNode, hv] at h
    cases h
    exact ⟨by simp [localChildren, hv], fun it hit => absurd hit (List.not_mem_nil it)⟩

/-- Helper: a visited-map extension keeps every lookup defined. -/
theorem hl_lookup_cons_isSome (vis : List (Addr × Nat)) (a b : Addr) (n : Nat)
    (h : (lookupAddr vis b).isSome = true) :
    (lookupAddr ((a, n) :: vis) b).isSome = true := by
  show (if a = b then some n else lookupAddr vis b).isSome = true
  by_cases hab : a = b
  · rw [if_pos hab]; rfl
  · rw [if_neg hab]; exact h

/-- Helper: lookup of the freshly inserted key. -/
theorem hl_lookup_cons_self (vis : List (Addr × Nat)) (a : Addr) (n : Nat) :
    lookupAddr ((a, n) :: vis) a = some n := by
  show (if a = a then some n else lookupAddr vis a) = some n
  rw [if_pos rfl]

/-- Helper: lookup of a different key passes through the extension. -/
theorem hl_lookup_cons_ne (vis : List (Addr × Nat)) (a b : Addr) (n : Nat)
    (h : ¬ a = b) : lookupAddr ((a, n) :: vis) b = lookupAddr vis b := by
  show (if a = b then some n else lookupAddr vis b) = lookupAddr vis b
  rw [if_neg h]

/-- Helper: the traversal only grows the visited map. -/
theorem hl_newAux_mono (arena : Arena)
    (resolvers : List (String × Resolver)) :
    ∀ (fuel : Nat) (queue : List QItem) (al al' : AdjacencyList),
      newAux arena resolvers fuel queue al = .ok al' →
      ∀ (a : Addr) (id : Nat), lookupAddr al.visited a = some id →
        lookupAddr al'.visited a = some id := by
  intro fuel
  induction fuel with
  | zero =>
    intro queue al al' hok a id ha
    cases queue with
    | nil => rw [hl_newAux_nil] at hok; cases hok; exact ha
    | cons item rest => exact absurd hok (by simp [newAux])
  | succ n ih =>
    intro queue al al' hok a id ha
    cases queue with
    | nil => rw [hl_newAux_nil] at hok; cases hok; exact ha
    | cons item rest =>
      rcases h : lookupAddr al.visited item.node with _ | id0
      · rw [hl_newAux_new arena resolvers n item rest al h] at hok
        cases hex : expandNode arena resolvers item.scope al.nodes.length
            item.node with
        | ok children =>
          rw [hex] at hok
          refine ih _ _ _ hok a id ?_
          show lookupAddr ((item.node, al.nodes.length) :: al.visited) a = some id
          exact hl_lookup_cons_of_ne al.visited item.node a al.nodes.length id h ha
        | err e => rw [hex] at hok; exact absurd hok (by simp)
        | panic m => rw [hex] at hok; exact absurd hok (by simp)
      · rw [hl_newAux_used arena resolvers n item rest al id0 h] at hok
        exact ih _ _ _ hok a id ha

/-- Helper: every queued item's value ends up in the visited map. -/
theorem hl_newAux_processed (arena : Arena)
    (resolvers : List (String × Resolver)) :
    ∀ (fuel : Nat) (queue : List QItem) (al al' : AdjacencyList),
      newAux arena resolvers fuel queue al = .ok al' →
      ∀ it ∈ queue, (lookupAddr al'.visited it.node).isSome = true := by
  intro fuel
  induction fuel with
  | zero =>
    intro queue al al' hok it hit
    cases queue with
    | nil => exact absurd hit (List.not_mem_nil it)
    | cons item rest => exact absurd hok (by simp [newAux])
  | succ n ih =>
    intro queue al al' hok it hit
    cases queue with
    | nil => exact absurd hit (List.not_mem_nil it)
    | cons item rest =>
      rcases h : lookupAddr al.visited item.node with _ | id0
      · rw [hl_newAux_new arena resolvers n item rest al h] at hok
        cases hex : expandNode arena resolvers item.scope al.nodes.length
            item.node with
        | ok children =>
          rw [hex] at hok
          rcases List.mem_cons.mp hit with rfl | hit'
          · have hin : lookupAddr ((it.node, al.nodes.length) :: al.visited)
                it.node = some al.nodes.length :=
              hl_lookup_cons_self al.visited it.node al.nodes.length
            have := hl_newAux_mono arena resolvers n _ _ _ hok it.node
              al.nodes.length hin
            rw [this]
            rfl
          · exact ih _ _ _ hok it (List.mem_append_left children hit')
        | err e => rw [hex] at hok; exact absurd hok (by simp)
        | panic m => rw [hex] at hok; exact absurd hok (by simp)
      · rw [hl_newAux_used arena resolvers n item rest al id0 h] at hok
        rcases List.mem_cons.mp hit with rfl | hit'
        · have := hl_newAux_mono arena resolvers n _ _ _ hok it.node id0 h
          rw [this]
          rfl
        · exact ih _ _ _ hok it hit'

/-- Helper: for a purely-local document, the visited map of a finished
traversal is closed under local children: whenever every pending obligation
is either visited or queued, the final visited map is child-closed. -/
theorem hl_newAux_closure (arena : Arena)
    (resolvers : List (String × Resolver)) (root : Resolver) (schema : Addr)
    (hroot : root.root = schema) (hlo : localOnly arena = true) :
    ∀ (fuel : Nat) (queue : List QItem) (al al' : AdjacencyList),
      (∀ it ∈ queue, it.scope.resolver = root) →
      (∀ (a : Addr) (id : Nat), lookupAddr al.visited a = some id →
        ∀ b ∈ localChildren arena schema a,
          (lookupAddr al.visited b).isSome = true
            ∨ ∃ it ∈ queue, it.node = b) →
      newAux arena resolvers fuel queue al = .ok al' →
      ∀ (a : Addr) (id : Nat), lookupAddr al'.visited a = some id →
        ∀ b ∈ localChildren arena schema a,
          (lookupAddr al'.visited b).isSome = true := by
  intro fuel
  induction fuel with
  | zero =>
    intro queue al al' hq hpend hok a id ha b hb
    cases queue with
    | nil =>
      rw [hl_newAux_nil] at hok
      cases hok
      rcases hpend a id ha b hb with hs | ⟨it, hit, _⟩
      · exact hs
      · exact absurd hit (List.not_mem_nil it)
    | cons item rest => exact absurd hok (by simp [newAux])
  | succ n ih =>
    intro queue al al' hq hpend hok a id ha b hb
    cases queue with
    | nil =>
      rw [hl_newAux_nil] at hok
      cases hok
      rcases hpend a id ha b hb with hs | ⟨it, hit, _⟩
      · exact hs
      · exact absurd hit (List.not_mem_nil it)
    | cons item rest =>
      rcases h : lookupAddr al.visited item.node with _ | id0
      · rw [hl_newAux_new arena resolvers n item rest al h] at hok
        cases hex : expandNode arena resolvers item.scope al.nodes.length
            item.node with
        | ok children =>
          rw [hex] at hok
          obtain ⟨hmap, hscopes⟩ := hl_expandNode_local arena resolvers root
            schema hroot hlo item.scope (hq item (List.mem_cons_self item rest))
            al.nodes.length item.node children hex
          refine ih _ _ _ ?_ ?_ hok a id ha b hb
          · intro it hit
            rcases List.mem_append.mp hit with hit' | hit'
            · exact hq it (List.mem_cons_of_mem item hit')
            · exact hscopes it hit'
          · intro a' id' ha' b' hb'
            by_cases haa : item.node = a'
            · subst haa
              have : b' ∈ children.map QItem.node := by
                rw [hmap]
                exact hb'
              obtain ⟨itc, hitc, rfl⟩ := List.mem_map.mp this
              exact Or.inr ⟨itc, List.mem_append_right rest hitc, rfl⟩
            · rw [hl_lookup_cons_ne al.visited item.node a' al.nodes.length haa]
                at ha'
              rcases hpend a' id' ha' b' hb' with hs | ⟨it, hit, heq⟩
              · exact Or.inl
                  (hl_lookup_cons_isSome al.visited item.node b'
                    al.nodes.length hs)
              · rcases List.mem_cons.mp hit with rfl | hit'
                · subst heq
                  refine Or.inl ?_
                  rw [hl_lookup_cons_self al.visited it.node al.nodes.length]
                  rfl
                · exact Or.inr ⟨it, List.mem_append_left children hit', heq⟩
        | err e => rw [hex] at hok; exact absurd hok (by simp)
        | panic m => rw [hex] at hok; exact absurd hok (by simp)
      · rw [hl_newAux_used arena resolvers n item rest al id0 h] at hok
        refine ih _ _ _ ?_ ?_ hok a id ha b hb
        · intro it hit
          exact hq it (List.mem_cons_of_mem item hit)
        · intro a' id' ha' b' hb'
          rcases hpend a' id' ha' b' hb' with hs | ⟨it, hit, heq⟩
          · exact Or.inl hs
          · rcases List.mem_cons.mp hit with rfl | hit'
            · subst heq
              rw [h] at *
              exact Or.inl (by rw [h]; rfl)
            · exact Or.inr ⟨it, hit', heq⟩

/-- Helper: for a purely-local document every visited value is reachable. -/
theorem hl_newAux_sound (arena : Arena)
    (resolvers : List (String × Resolver)) (root : Resolver) (schema : Addr)
    (hroot : root.root = schema) (hlo : localOnly arena = true) :
    ∀ (fuel : Nat) (queue : List QItem) (al al' : AdjacencyList),
      (∀ it ∈ queue, ReachL arena schema it.node ∧ it.scope.resolver = root) →
      (∀ (a : Addr) (id : Nat), lookupAddr al.visited a = some id →
        ReachL arena schema a) →
      newAux arena resolvers fuel queue al = .ok al' →
      ∀ (a : Addr) (id : Nat), lookupAddr al'.visited a = some id →
        ReachL arena schema a := by
  intro fuel
  induction fuel with
  | zero =>
    intro queue al al' hq hvis hok a id ha
    cases queue with
    | nil => rw [hl_newAux_nil] at hok; cases hok; exact hvis a id ha
    | cons item rest => exact absurd hok (by simp [newAux])
  | succ n ih =>
    intro queue al al' hq hvis hok a id ha
    cases queue with
    | nil => rw [hl_newAux_nil] at hok; cases hok; exact hvis a id ha
    | cons item rest =>
      rcases h : lookupAddr al.visited item.node with _ | id0
      · rw [hl_newAux_new arena resolvers n item rest al h] at hok
        cases hex : expandNode arena resolvers item.scope al.nodes.length
            item.node with
        | ok children =>
          rw [hex] at hok
          obtain ⟨hmap, hscopes⟩ := hl_expandNode_local arena resolvers root
            schema hroot hlo item.scope
            (hq item (List.mem_cons_self item rest)).2
            al.nodes.length item.node children hex
          refine ih _ _ _ ?_ ?_ hok a id ha
          · intro it hit
            rcases List.mem_append.mp hit with hit' | hit'
            · exact hq it (List.mem_cons_of_mem item hit')
            · refine ⟨?_, hscopes it hit'⟩
              have : it.node ∈ children.map QItem.node := List.mem_map_of_mem _ hit'
              rw [hmap] at this
              exact ReachL.child (hq item (List.mem_cons_self item rest)).1 this
          · intro a' id' ha'
            by_cases haa : item.node = a'
            · subst haa
              exact (hq item (List.mem_cons_self item rest)).1
            · rw [hl_lookup_cons_ne al.visited item.node a' al.nodes.length haa]
                at ha'
              exact hvis a' id' ha'
        | err e => rw [hex] at hok; exact absurd hok (by simp)
        | panic m => rw [hex] at hok; exact absurd hok (by simp)
      · rw [hl_newAux_used arena resolvers n item rest al id0 h] at hok
        refine ih _ _ _ ?_ ?_ hok a id ha
        · intro it hit
          exact hq it (List.mem_cons_of_mem item hit)
        · intro a' id' ha'
          exact hvis a' id' ha'

/-- Helper: visiting a fresh value removes exactly its child weight from the
unallocated weight (when the value lies in the arena; out-of-arena addresses
carry no weight). -/
theorem hl_unalloc_drop (arena : Arena) (vis : List (Addr × Nat)) (a : Addr)
    (n : Nat) (h : lookupAddr vis a = none) :
    unallocWeight arena ((a, n) :: vis)
      + (if a < arena.cells.length then (arena.get a).childCount else 0)
      = unallocWeight arena vis := by
  unfold unallocWeight
  have key := hl_sum_filter_remove (fun x => (arena.get x).childCount)
    (fun x => (lookupAddr vis x).isNone)
    (fun x => (lookupAddr ((a, n) :: vis) x).isNone) a
    (List.range arena.cells.length) (List.nodup_range _)
    (by show (lookupAddr vis a).isNone = true; rw [h]; rfl)
    (by
      intro x _
      show (lookupAddr ((a, n) :: vis) x).isNone
          = if x = a then false else (lookupAddr vis x).isNone
      by_cases hxa : x = a
      · subst hxa
        rw [if_pos rfl]
        show (if x = x then some n else lookupAddr vis x).isNone = false
        rw [if_pos rfl]
        rfl
      · rw [if_neg hxa]
        show (if a = x then some n else lookupAddr vis x).isNone
            = (lookupAddr vis x).isNone
        rw [if_neg (fun (hax : a = x) => hxa hax.symm)])
  rw [key]
  have hc : (a ∈ List.range arena.cells.length) ↔ (a < arena.cells.length) :=
    List.mem_range
  by_cases hm : a < arena.cells.length
  · rw [if_pos (hc.mpr hm), if_pos hm]
  · rw [if_neg (fun hh => hm (hc.mp hh)), if_neg hm]

/-- Helper: the traversal loop runs to completion whenever the fuel covers
the queue length plus the unallocated child weight — each step strictly
decreases that potential. -/
theorem hl_newAux_total (arena : Arena)
    (resolvers : List (String × Resolver)) :
    ∀ (fuel : Nat) (queue : List QItem) (al : AdjacencyList),
      queue.length + unallocWeight arena al.visited ≤ fuel →
      newAux arena resolvers fuel queue al ≠ .outOfFuel := by
  intro fuel
  induction fuel with
  | zero =>
    intro queue al hb
    cases queue with
    | nil => rw [hl_newAux_nil]; exact fun hh => BuildOutcome.noConfusion hh
    | cons item rest => simp at hb
  | succ n ih =>
    intro queue al hb
    cases queue with
    | nil => rw [hl_newAux_nil]; exact fun hh => BuildOutcome.noConfusion hh
    | cons item rest =>
      rcases h : lookupAddr al.visited item.node with _ | id
      · rw [hl_newAux_new arena resolvers n item rest al h]
        cases hex : expandNode arena resolvers item.scope al.nodes.length
            item.node with
        | ok children =>
          apply ih
          show (rest ++ children).length
              + unallocWeight arena ((item.node, al.nodes.length) :: al.visited)
              ≤ n
          have hdrop := hl_unalloc_drop arena al.visited item.node
            al.nodes.length h
          by_cases ha : item.node < arena.cells.length
          · rw [if_pos ha] at hdrop
            have hlen := hl_expandNode_len arena resolvers item.scope
              al.nodes.length item.node children hex
            simp only [List.length_append, List.length_cons] at hb ⊢
            omega
          · rw [if_neg ha] at hdrop
            have hnull : arena.get item.node = JVal.null := by
              unfold Arena.get
              exact List.getD_eq_default _ _ (Nat.le_of_not_lt ha)
            have hch : children = [] := by
              simp only [expandNode, hnull] at hex
              injection hex with hex'
              exact hex'.symm
            subst hch
            simp only [List.length_append, List.length_cons, List.length_nil] at hb ⊢
            omega
        | err e => exact fun hh => BuildOutcome.noConfusion hh
        | panic m => exact fun hh => BuildOutcome.noConfusion hh
      · rw [hl_newAux_used arena resolvers n item rest al id h]
        apply ih
        show rest.length + unallocWeight arena al.visited ≤ n
        simp only [List.length_cons] at hb
        omega

/-- Helper: on the empty visited map the unallocated weight is the total
weight of the arena. -/
theorem hl_unalloc_empty (arena : Arena) :
    unallocWeight arena [] = totalWeight arena := by
  unfold unallocWeight totalWeight
  have hf : List.filter (fun a => (lookupAddr ([] : List (Addr × Nat)) a).isNone)
      (List.range arena.cells.length) = List.range arena.cells.length :=
    List.filter_eq_self.mpr (fun a _ => rfl)
  rw [hf]

/-- Helper: `AdjacencyList::new` never exhausts its fuel: the traversal
always terminates, whatever the document's reference structure. -/
theorem hl_new_total (arena : Arena) (schema : Addr) (root : Resolver)
    (resolvers : List (String × Resolver)) :
    AdjacencyList.new arena schema root resolvers ≠ .outOfFuel := by
  apply hl_newAux_total
  show 1 + unallocWeight arena [] ≤ fuelFor arena
  rw [hl_unalloc_empty]
  unfold fuelFor
  omega

/-- Helper: the queue-slot parameter only stamps the parent field of the
enqueued items — expanding the same members at another slot yields the same
items up to that field. -/
theorem hl_expandObject_parent (arena : Arena)
    (resolvers : List (String × Resolver)) (scope : Scope) (i j : Nat) :
    ∀ (ms : List (String × Addr)) (items : List QItem),
      expandObject arena resolvers scope i ms = .ok items →
      expandObject arena resolvers scope j ms
        = .ok (items.map (fun it => ⟨it.scope, j, it.label, it.node⟩)) := by
  intro ms
  induction ms with
  | nil =>
    intro items h
    cases h
    rfl
  | cons m rest ih =>
    intro items h
    obtain ⟨k, v⟩ := m
    by_cases hk : k = "$ref"
    · subst hk
      simp only [expandObject, if_pos rfl] at h ⊢
      cases hv : arena.get v with
      | str s =>
        simp only [hv] at h ⊢
        cases hrc : refChild arena resolvers scope s with
        | ok p =>
          obtain ⟨sc', res'⟩ := p
          simp only [hrc] at h ⊢
          cases hrec : expandObject arena resolvers scope i rest with
          | ok items' =>
            simp only [hrec] at h
            cases h
            rw [ih items' hrec]
            simp
          | err e => simp only [hrec] at h; simp at h
          | panic mm => simp only [hrec] at h; simp at h
        | err e => simp only [hrc] at h; simp at h
        | panic mm => simp only [hrc] at h; simp at h
      | null =>
        simp only [hv] at h ⊢
        exact ih items h
      | bool b =>
        simp only [hv] at h ⊢
        exact ih items h
      | num n =>
        simp only [hv] at h ⊢
        exact ih items h
      | arr xs =>
        simp only [hv] at h ⊢
        exact ih items h
      | obj ms' =>
        simp only [hv] at h ⊢
        exact ih items h
    · simp only [expandObject, if_neg hk] at h ⊢
      cases hrec : expandObject arena resolvers scope i rest with
      | ok items' =>
        simp only [hrec] at h
        cases h
        rw [ih items' hrec]
        simp
      | err e => simp only [hrec] at h; simp at h
      | panic mm => simp only [hrec] at h; simp at h

/-- Helper: slot-independence of a value's expansion, up to the parent
field of the enqueued items. -/
theorem hl_expandNode_parent (arena : Arena)
    (resolvers : List (String × Resolver)) (scope : Scope) (i j : Nat)
    (a : Addr) (items : List QItem)
    (h : expandNode arena resolvers scope i a = .ok items) :
    expandNode arena resolvers scope j a
      = .ok (items.map (fun it => ⟨it.scope, j, it.label, it.node⟩)) := by
  cases hv : arena.get a with
  | obj ms =>
    simp only [expandNode, hv] at h ⊢
    exact hl_expandObject_parent arena resolvers _ i j ms items h
  | arr xs =>
    simp only [expandNode, hv] at h ⊢
    cases h
    rw [List.map_map]
    rfl
  | null => simp only [expandNode, hv] at h ⊢; cases h; rfl
  | bool b => simp only [expandNode, hv] at h ⊢; cases h; rfl
  | num n => simp only [expandNode, hv] at h ⊢; cases h; rfl
  | str s => simp only [expandNode, hv] at h ⊢; cases h; rfl

/-- Helper: the values a node enqueues do not depend on the queue slot. -/
theorem hl_expandNode_nodes_eq (arena : Arena)
    (resolvers : List (String × Resolver)) (scope : Scope) (i j : Nat)
    (a : Addr) (items items' : List QItem)
    (hi : expandNode arena resolvers scope i a = .ok items)
    (hj : expandNode arena resolvers scope j a = .ok items') :
    items'.map QItem.node = items.map QItem.node := by
  have ht := hl_expandNode_parent arena resolvers scope i j a items hi
  rw [hj] at ht
  injection ht with ht'
  rw [ht', List.map_map]
  rfl

/-- Helper: under a coherent scope assignment, the visited map of a finished
traversal is closed under expansion children: whenever every pending
obligation is either visited or queued, the final visited map contains every
child a visited value enqueues at its designated scope. -/
theorem hl_newAux_closureD (arena : Arena)
    (resolvers : List (String × Resolver)) (docScope : Addr → Scope)
    (hcs : canonicalScopes arena resolvers docScope) :
    ∀ (fuel : Nat) (queue : List QItem) (al al' : AdjacencyList),
      (∀ it ∈ queue, it.scope = docScope it.node) →
      (∀ (a : Addr) (id : Nat), lookupAddr al.visited a = some id →
        ∀ (slotId : Nat) (items : List QItem),
          expandNode arena resolvers (docScope a) slotId a = .ok items →
          ∀ b ∈ items.map QItem.node,
            (lookupAddr al.visited b).isSome = true
              ∨ ∃ it ∈ queue, it.node = b) →
      newAux arena resolvers fuel queue al = .ok al' →
      ∀ (a : Addr) (id : Nat), lookupAddr al'.visited a = some id →
        ∀ (slotId : Nat) (items : List QItem),
          expandNode arena resolvers (docScope a) slotId a = .ok items →
          ∀ b ∈ items.map QItem.node,
            (lookupAddr al'.visited b).isSome = true := by
  intro fuel
  induction fuel with
  | zero =>
    intro queue al al' hq hpend hok a id ha slotId items hexp b hb
    cases queue with
    | nil =>
      rw [hl_newAux_nil] at hok
      cases hok
      rcases hpend a id ha slotId items hexp b hb with hs | ⟨it, hit, _⟩
      · exact hs
      · exact absurd hit (List.not_mem_nil it)
    | cons item rest => exact absurd hok (by simp [newAux])
  | succ n ih =>
    intro queue al al' hq hpend hok a id ha slotId items hexp b hb
    cases queue with
    | nil =>
      rw [hl_newAux_nil] at hok
      cases hok
      rcases hpend a id ha slotId items hexp b hb with hs | ⟨it, hit, _⟩
      · exact hs
      · exact absurd hit (List.not_mem_nil it)
    | cons item rest =>
      rcases h : lookupAddr al.visited item.node with _ | id0
      · rw [hl_newAux_new arena resolvers n item rest al h] at hok
        cases hex : expandNode arena resolvers item.scope al.nodes.length
            item.node with
        | ok children =>
          rw [hex] at hok
          have hsc : item.scope = docScope item.node :=
            hq item (List.mem_cons_self item rest)
          have hex' : expandNode arena resolvers (docScope item.node)
              al.nodes.length item.node = .ok children := by
            rw [← hsc]
            exact hex
          refine ih _ _ _ ?_ ?_ hok a id ha slotId items hexp b hb
          · intro it hit
            rcases List.mem_append.mp hit with hit' | hit'
            · exact hq it (List.mem_cons_of_mem item hit')
            · exact hcs item.node al.nodes.length children hex' it hit'
          · intro a' id' ha' slotId' items' hexp' b' hb'
            by_cases haa : item.node = a'
            · subst haa
              rw [hl_expandNode_nodes_eq arena resolvers (docScope item.node)
                al.nodes.length slotId' item.node children items' hex' hexp']
                at hb'
              obtain ⟨itc, hitc, rfl⟩ := List.mem_map.mp hb'
              exact Or.inr ⟨itc, List.mem_append_right rest hitc, rfl⟩
            · rw [hl_lookup_cons_ne al.visited item.node a' al.nodes.length haa]
                at ha'
              rcases hpend a' id' ha' slotId' items' hexp' b' hb' with
                hs | ⟨it, hit, heq⟩
              · exact Or.inl
                  (hl_lookup_cons_isSome al.visited item.node b'
                    al.nodes.length hs)
              · rcases List.mem_cons.mp hit with rfl | hit'
                · subst heq
                  refine Or.inl ?_
                  rw [hl_lookup_cons_self al.visited it.node al.nodes.length]
                  rfl
                · exact Or.inr ⟨it, List.mem_append_left children hit', heq⟩
        | err e => rw [hex] at hok; exact absurd hok (by simp)
        | panic m => rw [hex] at hok; exact absurd hok (by simp)
      · rw [hl_newAux_used arena resolvers n item rest al id0 h] at hok
        refine ih _ _ _ ?_ ?_ hok a id ha slotId items hexp b hb
        · intro it hit
          exact hq it (List.mem_cons_of_mem item hit)
        · intro a' id' ha' slotId' items' hexp' b' hb'
          rcases hpend a' id' ha' slotId' items' hexp' b' hb' with
            hs | ⟨it, hit, heq⟩
          · exact Or.inl hs
          · rcases List.mem_cons.mp hit with rfl | hit'
            · subst heq
              refine Or.inl ?_
              rw [h]
              rfl
            · exact Or.inr ⟨it, hit', heq⟩

/-- Helper: under a coherent scope assignment every visited value is
reachable from the schema root. -/
theorem hl_newAux_soundD (arena : Arena)
    (resolvers : List (String × Resolver)) (docScope : Addr → Scope)
    (schema : Addr) (hcs : canonicalScopes arena resolvers docScope) :
    ∀ (fuel : Nat) (queue : List QItem) (al al' : AdjacencyList),
      (∀ it ∈ queue, ReachD arena resolvers docScope schema it.node
        ∧ it.scope = docScope it.node) →
      (∀ (a : Addr) (id : Nat), lookupAddr al.visited a = some id →
        ReachD arena resolvers docScope schema a) →
      newAux arena resolvers fuel queue al = .ok al' →
      ∀ (a : Addr) (id : Nat), lookupAddr al'.visited a = some id →
        ReachD arena resolvers docScope schema a := by
  intro fuel
  induction fuel with
  | zero =>
    intro queue al al' hq hvis hok a id ha
    cases queue with
    | nil => rw [hl_newAux_nil] at hok; cases hok; exact hvis a id ha
    | cons item rest => exact absurd hok (by simp [newAux])
  | succ n ih =>
    intro queue al al' hq hvis hok a id ha
    cases queue with
    | nil => rw [hl_newAux_nil] at hok; cases hok; exact hvis a id ha
    | cons item rest =>
      rcases h : lookupAddr al.visited item.node with _ | id0
      · rw [hl_newAux_new arena resolvers n item rest al h] at hok
        cases hex : expandNode arena resolvers item.scope al.nodes.length
            item.node with
        | ok children =>
          rw [hex] at hok
          have hsc : item.scope = docScope item.node :=
            (hq item (List.mem_cons_self item rest)).2
          have hex' : expandNode arena resolvers (docScope item.node)
              al.nodes.length item.node = .ok children := by
            rw [← hsc]
            exact hex
          refine ih _ _ _ ?_ ?_ hok a id ha
          · intro it hit
            rcases List.mem_append.mp hit with hit' | hit'
            · exact hq it (List.mem_cons_of_mem item hit')
            · refine ⟨?_, hcs item.node al.nodes.length children hex' it hit'⟩
              refine ReachD.child (hq item (List.mem_cons_self item rest)).1
                ⟨al.nodes.length, children, hex', ?_⟩
              exact List.mem_map_of_mem QItem.node hit'
          · intro a' id' ha'
            by_cases haa : item.node = a'
            · subst haa
              exact (hq item (List.mem_cons_self item rest)).1
            · rw [hl_lookup_cons_ne al.visited item.node a' al.nodes.length haa]
                at ha'
              exact hvis a' id' ha'
        | err e => rw [hex] at hok; exact absurd hok (by simp)
        | panic m => rw [hex] at hok; exact absurd hok (by simp)
      · rw [hl_newAux_used arena resolvers n item rest al id0 h] at hok
        refine ih _ _ _ ?_ ?_ hok a id ha
        · intro it hit
          exact hq it (List.mem_cons_of_mem item hit)
        · intro a' id' ha'
          exact hvis a' id' ha'

/-- C2: cycle termination and node count.  First, `AdjacencyList::new`
never exhausts its (sufficient) fuel: the traversal terminates on every
document and registry whatsoever — self-referential, mutually-referential
cross-document, and absolute reference cycles included — because
deduplication expands each distinct value at most once.  Second, for every
document set admitting a coherent per-value scope assignment (each value
expanded at its designated scope hands children their designated scopes —
the situation of same-document references, registered cross-document
references, and absolute fallback self-references alike), the non-sentinel
nodes of a successful run are exactly the distinct (by identity) values
reachable from the root through expansion, each stored exactly once: the
node count equals the number of distinct reachable values, not the number
of reference traversals. -/
theorem claim_c2_cycle_termination :
    (∀ (arena : Arena) (schema : Addr) (root : Resolver)
        (resolvers : List (String × Resolver)),
        AdjacencyList.new arena schema root resolvers ≠ .outOfFuel)
  ∧ (∀ (arena : Arena) (schema : Addr) (root : Resolver)
        (resolvers : List (String × Resolver)) (docScope : Addr → Scope),
        docScope schema = Scope.new root →
        canonicalScopes arena resolvers docScope →
        ∀ al, AdjacencyList.new arena schema root resolvers = .ok al →
          ((∀ a : Addr, some a ∈ al.nodes
              ↔ ReachD arena resolvers docScope schema a)
           ∧ (∀ (a : Addr) (i j : Nat), al.nodes.get? i = some (some a) →
                al.nodes.get? j = some (some a) → i = j))) := by
  constructor
  · intro arena schema root resolvers
    exact hl_new_total arena schema root resolvers
  · intro arena schema root resolvers docScope h1 hcs al hok
    have inv : ListInv al :=
      hl_newAux_inv arena resolvers (fuelFor arena) _ _ al hl_inv_empty hok
    have hvis_reach : ∀ (a : Addr) (id : Nat),
        lookupAddr al.visited a = some id →
        ReachD arena resolvers docScope schema a := by
      refine hl_newAux_soundD arena resolvers docScope schema hcs
        (fuelFor arena) _ AdjacencyList.empty al ?_ ?_ hok
      · intro it hit
        rcases List.mem_singleton.mp hit
        exact ⟨ReachD.root, h1.symm⟩
      · intro a id ha
        exact absurd ha (by simp [AdjacencyList.empty, lookupAddr])
    have hclosed : ∀ (a : Addr) (id : Nat),
        lookupAddr al.visited a = some id →
        ∀ (slotId : Nat) (items : List QItem),
          expandNode arena resolvers (docScope a) slotId a = .ok items →
          ∀ b ∈ items.map QItem.node,
            (lookupAddr al.visited b).isSome = true := by
      refine hl_newAux_closureD arena resolvers docScope hcs
        (fuelFor arena) _ AdjacencyList.empty al ?_ ?_ hok
      · intro it hit
        rcases List.mem_singleton.mp hit
        exact h1.symm
      · intro a id ha
        exact absurd ha (by simp [AdjacencyList.empty, lookupAddr])
    have hschema : (lookupAddr al.visited schema).isSome = true := by
      refine hl_newAux_processed arena resolvers (fuelFor arena) _
        AdjacencyList.empty al hok ⟨Scope.new root, 0, .index 0, schema⟩
        (List.mem_singleton.mpr rfl)
    have hreach_vis : ∀ a : Addr,
        ReachD arena resolvers docScope schema a →
        (lookupAddr al.visited a).isSome = true := by
      intro a hre
      induction hre with
      | root => exact hschema
      | child hra hstep ihh =>
        rename_i a' b'
        obtain ⟨slotId, items, hexp, hmem⟩ := hstep
        obtain ⟨id, hid⟩ := Option.isSome_iff_exists.mp ihh
        exact hclosed a' id hid slotId items hexp b' hmem
    refine ⟨?_, ?_⟩
    · intro a
      constructor
      · intro hmem
        obtain ⟨i, hi⟩ := List.mem_iff_get?.mp hmem
        exact hvis_reach a i (inv.nodes_sound i a hi)
      · intro hre
        obtain ⟨id, hid⟩ := Option.isSome_iff_exists.mp (hreach_vis a hre)
        exact List.get?_mem (inv.vis_sound a id hid)
    · intro a i j hi hj
      have h2 := inv.nodes_sound i a hi
      have h3 := inv.nodes_sound j a hj
      rw [h2] at h3
      exact Option.some.inj h3

/-- Helper: the per-document scope assignment of the mutual cross-document
cycle is coherent: each document's reference hands the other document's
root its own resolver. -/
theorem hl_mutual_canonical :
    canonicalScopes mutualArena mutualRegistry mutualDocScope := by
  intro a slotId items h it hit
  rcases a with _ | _ | _ | _ | a
  · rw [show expandNode mutualArena mutualRegistry (mutualDocScope 0) slotId 0
        = .ok [⟨⟨[], mutualResolverB⟩, slotId, .key ("$ref"), 2⟩] from rfl] at h
    cases h
    rw [List.mem_singleton.mp hit]
    rfl
  · rw [show expandNode mutualArena mutualRegistry (mutualDocScope 1) slotId 1
        = .ok [] from rfl] at h
    cases h
    exact absurd hit (List.not_mem_nil it)
  · rw [show expandNode mutualArena mutualRegistry (mutualDocScope 2) slotId 2
        = .ok [⟨⟨[], mutualResolverA⟩, slotId, .key ("$ref"), 0⟩] from rfl] at h
    cases h
    rw [List.mem_singleton.mp hit]
    rfl
  · rw [show expandNode mutualArena mutualRegistry (mutualDocScope 3) slotId 3
        = .ok [] from rfl] at h
    cases h
    exact absurd hit (List.not_mem_nil it)
  · have hnull : mutualArena.get (a + 4) = JVal.null := by
      unfold Arena.get
      refine List.getD_eq_default _ _ ?_
      show 4 ≤ a + 4
      omega
    simp only [expandNode, hnull] at h
    cases h
    exact absurd hit (List.not_mem_nil it)

/-- Witness for C2 at a concrete input: the mutually-referential
cross-document cycle of `mutualArena` terminates, and its node for
document B's root (address 2) is exactly mirrored by reachability. -/
theorem claim_c2_witness :
    AdjacencyList.new mutualArena 0 mutualResolverA mutualRegistry
      ≠ .outOfFuel
  ∧ (some 2 ∈ mutualList.nodes
      ↔ ReachD mutualArena mutualRegistry mutualDocScope 0 2) :=
  ⟨claim_c2_cycle_termination.1 mutualArena 0 mutualResolverA mutualRegistry,
   ((claim_c2_cycle_termination.2 mutualArena 0 mutualResolverA mutualRegistry
      mutualDocScope (by decide) hl_mutual_canonical mutualList
      (by decide)).1 2)⟩
